import Mathlib

/-!
Verification of the molstar structure-element selection core:
`StructureElement.Loci` algebra (union / subtract / areIntersecting),
the serializable `StructureElement.Query` (fromLoci / toLoci),
the MolScript runtime symbols (linkFlags, flags.hasAny / hasAll,
modifier.includeConnected) and the `getMissingResidues` property table.

The TypeScript sources are embedded shallowly: JS arrays become `List`,
JS `Map` (string/number keyed, insertion ordered) becomes an association
list with insert-or-overwrite semantics, JS numbers used as integral
values become `Nat`/`Int`.  The `OrderedSet`/`Interval`/`SortedArray`
primitives of `mol-data/int` are not part of the provided sources and are
modelled from the spec (§4.1): an ascending index container that is either
a half-open interval or an explicit sorted array, with set-semantic
algebra operations.
-/

namespace MolStar

/-- Modelled from the spec: `OrderedSet<T>` of `mol-data/int` (not under
`src/`) — polymorphic over two concrete representations, an Interval
(numeric range, stored half-open as in the source `Interval` tuple) and a
SortedArray (explicit ascending unique values). -/
inductive OrderedSet where
  | interval (start stop : Nat)
  | sortedArray (xs : List Nat)
deriving Repr, DecidableEq

/-- The members of an `OrderedSet` as a list (interval `[start, stop)`). -/
def OrderedSet.toList : OrderedSet → List Nat
  | .interval s e => List.range' s (e - s)
  | .sortedArray xs => xs

/-- Modelled from the spec: `OrderedSet.size`. -/
def OrderedSet.size : OrderedSet → Nat
  | .interval s e => e - s
  | .sortedArray xs => xs.length

/-- Modelled from the spec: `OrderedSet.has` membership test. -/
def OrderedSet.memB (o : OrderedSet) (x : Nat) : Bool :=
  match o with
  | .interval s e => decide (s ≤ x ∧ x < e)
  | .sortedArray xs => xs.contains x

/-- Modelled from the spec: `OrderedSet.isInterval`. -/
def OrderedSet.isInterval : OrderedSet → Bool
  | .interval _ _ => true
  | .sortedArray _ => false

/-- `Interval.min` of the source: the start of the (half-open) interval. -/
def OrderedSet.intervalMin : OrderedSet → Nat
  | .interval s _ => s
  | .sortedArray _ => 0

/-- `Interval.max` of the source: the last member of the interval. -/
def OrderedSet.intervalMax : OrderedSet → Nat
  | .interval _ e => e - 1
  | .sortedArray _ => 0

/-- `Interval.ofRange(min, max)` of the source: the closed range `[a, b]`
stored half-open. -/
def intervalOfRange (a b : Nat) : OrderedSet := .interval a (b + 1)

/-- Ascending merge (with deduplication) of two sorted lists; used by the
modelled `OrderedSet.union` to produce the ascending unique member list. -/
def mergeLists : List Nat → List Nat → List Nat
  | [], ys => ys
  | x :: xs, [] => x :: xs
  | x :: xs, y :: ys =>
    if x < y then x :: mergeLists xs (y :: ys)
    else if y < x then y :: mergeLists (x :: xs) ys
    else x :: mergeLists xs ys
termination_by a b => a.length + b.length

/-- Modelled from the spec: `OrderedSet.union` — set union, keeping the
interval representation on the contiguous interval∪interval fast path and
degrading to a sorted array otherwise. -/
def osUnion (a b : OrderedSet) : OrderedSet :=
  match a, b with
  | .interval s1 e1, .interval s2 e2 =>
    if s1 ≥ e1 then .interval s2 e2
    else if s2 ≥ e2 then .interval s1 e1
    else if s1 ≤ e2 ∧ s2 ≤ e1 then .interval (min s1 s2) (max e1 e2)
    else .sortedArray (mergeLists (OrderedSet.toList (.interval s1 e1)) (OrderedSet.toList (.interval s2 e2)))
  | a, b => .sortedArray (mergeLists a.toList b.toList)

/-- Modelled from the spec: `OrderedSet.subtract` — set difference (the
representation-level fast paths of the source are irrelevant to the
membership-level claims and the result is produced as a sorted array). -/
def osSubtract (a b : OrderedSet) : OrderedSet :=
  .sortedArray (a.toList.filter (fun x => !(b.memB x)))

/-- Modelled from the spec: `OrderedSet.areIntersecting` — do the two sets
share a member. -/
def osAreIntersecting (a b : OrderedSet) : Bool :=
  a.toList.any (fun x => b.memB x)

/-- A structure `Unit` (source `mol-model/structure/structure/unit`):
only the `id` (unique per Structure) and `invariantId` (shared by
symmetry-equivalent copies) take part in the verified operations. -/
structure SUnit where
  id : Nat
  invariantId : Nat
deriving Repr, DecidableEq

/-- A `Structure`: its units (the source's `unitMap` keyed by `Unit.id`),
its `hashCode`, and the root hash, i.e. `(structure.parent || structure).hashCode`
of the source, modelled directly as `parentHash` (`none` when the structure
has no parent). -/
structure Structure where
  units : List SUnit
  hashCode : Int
  parentHash : Option Int
deriving Repr, DecidableEq

/-- `(s.parent || s).hashCode` of the source. -/
def Structure.rootHash (s : Structure) : Int := s.parentHash.getD s.hashCode

/-- `structure.unitMap.has(id)`. -/
def Structure.hasUnit (s : Structure) (uid : Nat) : Bool :=
  s.units.any (fun u => u.id == uid)

/-- `structure.unitMap.get(id)`.  In the source an absent id yields
`undefined` (and a crash at first use); the model returns a placeholder
carrying the requested id, and the theorems assume the id is present. -/
def Structure.findUnit (s : Structure) (uid : Nat) : SUnit :=
  (s.units.find? (fun u => u.id == uid)).getD ⟨uid, 0⟩

/-- One entry of `Loci.elements`: a unit together with indices into the
unit's element array. -/
structure LociElement where
  unit : SUnit
  indices : OrderedSet
deriving Repr, DecidableEq

/-- `StructureElement.Loci`: a structure plus `(unit, indices)` entries.
The source field is named `structure` (a Lean keyword), here `struct`. -/
structure Loci where
  struct : Structure
  elements : List LociElement
deriving Repr, DecidableEq

/-- JS `Map.set` on an insertion-ordered association list: overwrite in
place when the key exists, append otherwise. -/
def mapSet {κ α : Type} [DecidableEq κ] (m : List (κ × α)) (k : κ) (v : α) : List (κ × α) :=
  if m.any (fun p => p.1 = k) then m.map (fun p => if p.1 = k then (k, v) else p)
  else m ++ [(k, v)]

/-- JS `Map.get`. -/
def mapGet {κ α : Type} [DecidableEq κ] (m : List (κ × α)) (k : κ) : Option α :=
  (m.find? (fun p => p.1 = k)).map Prod.snd

/-- JS `Map.has`. -/
def mapHas {κ α : Type} [DecidableEq κ] (m : List (κ × α)) (k : κ) : Bool :=
  m.any (fun p => p.1 = k)

/-- JS `Map.delete`. -/
def mapDelete {κ α : Type} [DecidableEq κ] (m : List (κ × α)) (k : κ) : List (κ × α) :=
  m.filter (fun p => p.1 ≠ k)

namespace Loci

/-- `StructureElement.Loci.none`. -/
def noneLoci (structure_ : Structure) : Loci := ⟨structure_, []⟩

/-- The map `unit.id → indices` built by the source loops
`for (const e of xs.elements) map.set(e.unit.id, e.indices)`. -/
def buildIndexMap (es : List LociElement) : List (Nat × OrderedSet) :=
  es.foldl (fun m e => mapSet m e.unit.id e.indices) []

/-- One iteration of the `for (const e of ys.elements)` loop of
`Loci.union`: merge with the map entry (and delete it) or pass through. -/
def unionStep (s : List LociElement × List (Nat × OrderedSet)) (e : LociElement) :
    List LociElement × List (Nat × OrderedSet) :=
  match mapGet s.2 e.unit.id with
  | some ind => (s.1 ++ [⟨e.unit, osUnion ind e.indices⟩], mapDelete s.2 e.unit.id)
  | none => (s.1 ++ [e], s.2)

/-- The body of `Loci.union` after the argument swap: `xs` is the side
whose elements seed the map, `ys` is iterated. -/
def unionBody (xs ys : Loci) : Loci :=
  if xs.elements.length = 0 then ys
  else
    let start : List LociElement × List (Nat × OrderedSet) := ([], buildIndexMap xs.elements)
    let res := ys.elements.foldl unionStep start
    ⟨xs.struct, res.1 ++ res.2.map (fun kv => ⟨xs.struct.findUnit kv.1, kv.2⟩)⟩

/-- `StructureElement.Loci.union`: the source first recurses with swapped
arguments when `xs.elements.length > ys.elements.length` (after which the
guard is false), so it equals one `unionBody` run on the ordered pair. -/
def union (xs ys : Loci) : Loci :=
  if xs.elements.length > ys.elements.length then unionBody ys xs else unionBody xs ys

/-- `StructureElement.Loci.subtract`. -/
def subtract (xs ys : Loci) : Loci :=
  let map := buildIndexMap ys.elements
  ⟨xs.struct, xs.elements.foldl (fun acc e =>
    match mapGet map e.unit.id with
    | some ind =>
      let indices := osSubtract e.indices ind
      if indices.size = 0 then acc else acc ++ [⟨e.unit, indices⟩]
    | none => acc ++ [e]) []⟩

/-- Body of `Loci.areIntersecting` after the argument swap. -/
def areIntersectingBody (xs ys : Loci) : Bool :=
  if xs.elements.length = 0 then ys.elements.length == 0
  else
    let map := buildIndexMap xs.elements
    ys.elements.any (fun e =>
      match mapGet map e.unit.id with
      | some ind => osAreIntersecting ind e.indices
      | none => false)

/-- `StructureElement.Loci.areIntersecting`. -/
def areIntersecting (xs ys : Loci) : Bool :=
  if xs.elements.length > ys.elements.length then areIntersectingBody ys xs
  else areIntersectingBody xs ys

end Loci

/-- The selection semantics of a Loci: `(uid, idx)` is selected when some
element carries the unit with id `uid` and its index set contains `idx`. -/
def Loci.selects (l : Loci) (uid idx : Nat) : Prop :=
  ∃ e ∈ l.elements, e.unit.id = uid ∧ e.indices.memB idx = true

instance (l : Loci) (uid idx : Nat) : Decidable (l.selects uid idx) := by
  unfold Loci.selects; infer_instance

/-- The unit ids listed by a Loci's elements array. -/
def Loci.unitIds (l : Loci) : List Nat := l.elements.map (fun e => e.unit.id)

/-! ### StructureElement.Query -/

/-- The inner `while` of the run-splitting loops (`Query.fromLoci` and
`getOpData`): starting after `prev`, consume values while each equals its
predecessor plus one; returns the consumed continuation and the rest. -/
def takeRun (prev : Nat) : List Nat → List Nat × List Nat
  | [] => ([], [])
  | y :: ys =>
    if prev + 1 = y then
      let r := takeRun y ys
      (y :: r.1, r.2)
    else ([], y :: ys)

theorem takeRun_rest_length (prev : Nat) (l : List Nat) :
    (takeRun prev l).2.length ≤ l.length := by
  induction l generalizing prev with
  | nil => simp [takeRun]
  | cons y ys ih =>
    simp only [takeRun]
    split
    · exact le_trans (ih y) (by simp)
    · simp

/-- The outer run loop of `Query.fromLoci` on a sorted-array index set:
a maximal consecutive run of length `> 2` is pushed onto `ranges` as its
(first, last) pair, a shorter run is appended to `set` element-wise. -/
def splitRuns : List Nat → List Nat × List (Nat × Nat)
  | [] => ([], [])
  | x :: l =>
    let tr := takeRun x l
    let run := x :: tr.1
    let rest := splitRuns tr.2
    if run.length > 2 then (rest.1, (x, run.getLastD 0) :: rest.2)
    else (run ++ rest.1, rest.2)
termination_by xs => xs.length
decreasing_by
  have h := takeRun_rest_length y ys
  simp only [List.length_cons]
  omega

/-- A Query element's index pattern: the `set` and `ranges` arrays built
by `Query.fromLoci` for one Loci element (ranges as (lo, hi) pairs
standing for the source's flat `SortedRanges` array). -/
abbrev Pattern := List Nat × List (Nat × Nat)

/-- The per-element encoding step of `Query.fromLoci`: an Interval of
size 1 becomes a single set member, any other Interval one range
`(Interval.min, Interval.max)`; a SortedArray is split into runs. -/
def patternOf (indices : OrderedSet) : Pattern :=
  match indices with
  | .interval s e =>
    if OrderedSet.size (.interval s e) = 1 then ([s], [])
    else ([], [(OrderedSet.intervalMin (.interval s e), OrderedSet.intervalMax (.interval s e))])
  | .sortedArray xs => splitRuns xs

/-- `QueryElement` of the source: unit ids grouped by `invariantId`, plus
the shared index pattern. -/
structure QueryElement where
  groupedUnits : List (List Nat)
  set : List Nat
  ranges : List (Nat × Nat)
deriving Repr, DecidableEq

/-- `StructureElement.Query`. -/
structure Query where
  hash : Int
  elements : List QueryElement
deriving Repr, DecidableEq

/-- The `groupedUnits` update of `Query.fromLoci`: push the unit id onto
the bucket of its `invariantId`, creating the bucket when absent. -/
def bucketAdd (bs : List (Nat × List Nat)) (inv uid : Nat) : List (Nat × List Nat) :=
  if bs.any (fun b => b.1 = inv) then
    bs.map (fun b => if b.1 = inv then (b.1, b.2 ++ [uid]) else b)
  else bs ++ [(inv, [uid])]

/-- The `elementGroups` update of `Query.fromLoci`.  The source keys the
group map by `hash2(hashFnv32a(ranges), hashFnv32a(set))`; the hash
functions live in `mol-data/util` (not under `src/`) and are modelled
from the spec ("hash each pattern to merge identical ones") by keying on
the pattern itself. -/
def insertGrouped (acc : List (Pattern × List (Nat × List Nat))) (u : SUnit) (p : Pattern) :
    List (Pattern × List (Nat × List Nat)) :=
  if acc.any (fun g => g.1 = p) then
    acc.map (fun g => if g.1 = p then (g.1, bucketAdd g.2 u.invariantId u.id) else g)
  else acc ++ [(p, [(u.invariantId, [u.id])])]

/-- Stable insertion into a list ascending by the key `f`. -/
def insertByKey {α : Type} (f : α → Nat) (x : α) : List α → List α
  | [] => [x]
  | y :: ys => if f x ≤ f y then x :: y :: ys else y :: insertByKey f x ys

/-- Stable sort ascending by the key `f`; models the numeric JS array
sorts (`SortedArray.ofUnsortedArray`, `groupedUnits.sort((a, b) => a[0] - b[0])`). -/
def sortByKey {α : Type} (f : α → Nat) (l : List α) : List α :=
  l.foldr (insertByKey f) []

/-- The `_elements` array of `Query.fromLoci`: one `(unit, pattern)` pair
per Loci element with a non-empty index set. -/
def fromLociPre (l : Loci) : List (SUnit × Pattern) :=
  l.elements.filterMap (fun e =>
    if e.indices.size = 0 then none else some (e.unit, patternOf e.indices))

/-- The `elementGroups` map of `Query.fromLoci`. -/
def fromLociGroups (l : Loci) : List (Pattern × List (Nat × List Nat)) :=
  (fromLociPre l).foldl (fun acc up => insertGrouped acc up.1 up.2) []

/-- `StructureElement.Query.fromLoci`. -/
def fromLoci (l : Loci) : Query :=
  { hash := l.struct.rootHash,
    elements := (fromLociGroups l).map (fun g =>
      { groupedUnits := sortByKey (fun gu => gu.headD 0) (g.2.map (fun b => sortByKey id b.2)),
        set := g.1.1,
        ranges := g.1.2 }) }

/-- All members of a list of (lo, hi) ranges (`SortedRanges.forEach`). -/
def expandRanges (rs : List (Nat × Nat)) : List Nat :=
  (rs.map (fun r => List.range' r.1 (r.2 + 1 - r.1))).flatten

/-- `getUnitsFromIds` of the source. -/
def getUnitsFromIds (unitIds : List Nat) (parent : Structure) : List SUnit :=
  unitIds.filterMap (fun uid =>
    if parent.hasUnit uid then some (parent.findUnit uid) else none)

/-- The per-element index reconstruction of `Query.toLoci`: set only;
one range as an Interval; several ranges expanded; ranges plus set
concatenated and re-sorted (`SortedArray.ofUnsortedArray`).  The source's
`e.ranges.length` counts the flat array, here pairs. -/
def decodeIndices (e : QueryElement) : OrderedSet :=
  if e.ranges.length = 0 then .sortedArray e.set
  else if e.set.length = 0 then
    if e.ranges.length = 1 then
      match e.ranges with
      | r :: _ => intervalOfRange r.1 r.2
      | [] => .sortedArray []
    else .sortedArray (expandRanges e.ranges)
  else .sortedArray (sortByKey id (expandRanges e.ranges ++ e.set))

/-- `StructureElement.Query.toLoci`.  The source's hash-mismatch guard
executes `new Error('Query not compatible with given structure')` as an
expression statement — the Error is constructed and discarded, neither
thrown nor returned — so the guard has no effect and reconstruction
always proceeds; the model therefore has no failure path. -/
def toLoci (query : Query) (parent : Structure) : Loci :=
  ⟨parent, (query.elements.map (fun e =>
    (e.groupedUnits.map (fun g =>
      let units := getUnitsFromIds g parent
      if units.length = 0 then []
      else units.map (fun u => LociElement.mk u (decodeIndices e)))).flatten)).flatten⟩

/-! ### MolScript runtime symbols -/

/-- Modelled from the spec: the `LinkType.Flag` bit constants of
`mol-model/structure/model/types` (not under `src/`); only their
pairwise-distinct single-bit nature matters to the claims. -/
def covalentFlag : Nat := 1

/-- Modelled from the spec: `LinkType.Flag.MetallicCoordination`. -/
def metallicCoordinationFlag : Nat := 2

/-- Modelled from the spec: `LinkType.Flag.Ionic`. -/
def ionicFlag : Nat := 4

/-- Modelled from the spec: `LinkType.Flag.Hydrogen`. -/
def hydrogenFlag : Nat := 8

/-- Modelled from the spec: `LinkType.Flag.Sulfide`. -/
def sulfideFlag : Nat := 16

/-- Modelled from the spec: `LinkType.Flag.Aromatic`. -/
def aromaticFlag : Nat := 32

/-- Modelled from the spec: `LinkType.Flag.Computed`. -/
def computedFlag : Nat := 64

/-- ASCII lower-casing of one character (JS `toLowerCase` restricted to
the ASCII range the keywords use). -/
def charToLower (c : Char) : Char :=
  if 65 ≤ c.toNat ∧ c.toNat ≤ 90 then Char.ofNat (c.toNat + 32) else c

/-- `f.toLowerCase()` of the source, character-wise. -/
def strToLower (s : String) : String := ⟨s.data.map charToLower⟩

/-- The `linkFlag` helper of the runtime symbol table: or in the bit of a
recognized keyword (after lower-casing), return `current` unchanged for
anything else. -/
def linkFlag (current : Nat) (f : String) : Nat :=
  if strToLower f = "covalent" then current ||| covalentFlag
  else if strToLower f = "metallic" then current ||| metallicCoordinationFlag
  else if strToLower f = "ion" then current ||| ionicFlag
  else if strToLower f = "hydrogen" then current ||| hydrogenFlag
  else if strToLower f = "sulfide" then current ||| sulfideFlag
  else if strToLower f = "aromatic" then current ||| aromaticFlag
  else if strToLower f = "computed" then current ||| computedFlag
  else current

/-- The `MolScript.structureQuery.type.linkFlags` symbol on a positional
argument list: fold `linkFlag` over the evaluated arguments starting from
`LinkType.Flag.None` (= 0). -/
def linkFlags (args : List String) : Nat :=
  args.foldl linkFlag 0

/-- `MolScript.core.flags.hasAny`: with a falsy (zero) test mask the
result is `!!tested`; otherwise whether `tested & test` is nonzero. -/
def hasAny (tested test : Nat) : Bool :=
  if test = 0 then tested != 0 else (tested &&& test) != 0

/-- `MolScript.core.flags.hasAll`: with a falsy (zero) test mask the
result is `!tested`; otherwise whether `tested & test` equals `test`. -/
def hasAll (tested test : Nat) : Bool :=
  if test = 0 then tested == 0 else (tested &&& test) == test

/-- Placeholder for the `QueryContext` the argument thunks receive. -/
structure QueryContext where
  currentElement : Nat
deriving Repr, DecidableEq, Inhabited

/-- The `layerCount` forwarded by the
`MolScript.structureQuery.modifier.includeConnected` symbol:
`(xs['layer-count'] && xs['layer-count'](ctx)) || 1` — `1` when the thunk
is absent, and `1` whenever the thunk's value is falsy (zero). -/
def includeConnectedLayerCount (ctx : QueryContext)
    (layerCountThunk : Option (QueryContext → Int)) : Int :=
  match layerCountThunk with
  | none => 1
  | some f => if f ctx = 0 then 1 else f ctx

/-! ### getMissingResidues -/

/-- Decimal digit characters of a natural number (`${n}` in JS). -/
def natChars (n : Nat) : List Char :=
  if h : n < 10 then [Char.ofNat (48 + n)]
  else natChars (n / 10) ++ [Char.ofNat (48 + n % 10)]
decreasing_by exact Nat.div_lt_self (by omega) (by omega)

/-- Decimal rendering of an integer (`${n}` in JS), sign included. -/
def intChars : Int → List Char
  | .ofNat n => natChars n
  | .negSucc n => '-' :: natChars (n + 1)

/-- The map key built by `getMissingResidues`:
`` `${model_num}|${asym_id}|${seq_id}` ``, as its character list. -/
def getKey (modelNum : Int) (asymId : String) (seqId : Int) : List Char :=
  intChars modelNum ++ '|' :: asymId.data ++ '|' :: intChars seqId

/-- One row of the `pdbx_unobs_or_zero_occ_residues` table, restricted to
the columns `getMissingResidues` reads. -/
structure MissingResidueRow where
  pdbModelNum : Int
  labelAsymId : String
  labelSeqId : Int
  polymerFlag : String
  occupancyFlag : String
deriving Repr, DecidableEq

/-- The `MissingResidue` record stored per key. -/
structure MissingResidue where
  polymerFlag : String
  occupancyFlag : String
deriving Repr, DecidableEq

/-- The key triple of a table row. -/
def MissingResidueRow.triple (r : MissingResidueRow) : Int × String × Int :=
  (r.pdbModelNum, r.labelAsymId, r.labelSeqId)

/-- The row loop of `getMissingResidues`: `map.set(key(row), record(row))`
over the table rows in order. -/
def missingResiduesMap (rows : List MissingResidueRow) : List (List Char × MissingResidue) :=
  rows.foldl (fun m r =>
    mapSet m (getKey r.pdbModelNum r.labelAsymId r.labelSeqId)
      ⟨r.polymerFlag, r.occupancyFlag⟩) []

/-- The `has` method of the lookup returned by `getMissingResidues`. -/
def missingResiduesHas (rows : List MissingResidueRow)
    (modelNum : Int) (asymId : String) (seqId : Int) : Bool :=
  mapHas (missingResiduesMap rows) (getKey modelNum asymId seqId)

/-- The `get` method of the lookup returned by `getMissingResidues`
(`undefined` for an absent key becomes `none`). -/
def missingResiduesGet (rows : List MissingResidueRow)
    (modelNum : Int) (asymId : String) (seqId : Int) : Option MissingResidue :=
  mapGet (missingResiduesMap rows) (getKey modelNum asymId seqId)

/-- The `size` property of the lookup returned by `getMissingResidues`. -/
def missingResiduesSize (rows : List MissingResidueRow) : Nat :=
  (missingResiduesMap rows).length


/-! ### Membership lemmas for the modelled ordered-set primitives -/

theorem memB_iff_mem_toList (o : OrderedSet) (x : Nat) :
    o.memB x = true ↔ x ∈ o.toList := by
  cases o with
  | interval s e =>
    simp only [OrderedSet.memB, OrderedSet.toList, decide_eq_true_eq, List.mem_range'_1]
    omega
  | sortedArray xs =>
    simp [OrderedSet.memB, OrderedSet.toList]

theorem memB_size_pos (o : OrderedSet) (x : Nat) (h : o.memB x = true) :
    o.size ≠ 0 := by
  cases o with
  | interval s e =>
    simp only [OrderedSet.memB, decide_eq_true_eq] at h
    simp only [OrderedSet.size]
    omega
  | sortedArray xs =>
    simp only [OrderedSet.memB] at h
    simp only [OrderedSet.size]
    intro hlen
    rw [List.length_eq_zero] at hlen
    subst hlen
    simp at h

theorem mem_mergeLists (a b : List Nat) (x : Nat) :
    x ∈ mergeLists a b ↔ x ∈ a ∨ x ∈ b := by
  induction a, b using mergeLists.induct with
  | case1 ys => simp [mergeLists]
  | case2 x' xs => simp [mergeLists]
  | case3 x' xs y ys h1 ih =>
    rw [mergeLists]
    simp only [if_pos h1, List.mem_cons, ih]
    tauto
  | case4 x' xs y ys h1 h2 ih =>
    rw [mergeLists]
    rw [if_neg h1, if_pos h2]
    simp only [List.mem_cons, ih]
    tauto
  | case5 x' xs y ys h1 h2 ih =>
    rw [mergeLists]
    rw [if_neg h1, if_neg h2]
    simp only [List.mem_cons, ih]
    have : x' = y := by omega
    subst this
    tauto

theorem osUnion_memB (a b : OrderedSet) (x : Nat) :
    (osUnion a b).memB x = true ↔ a.memB x = true ∨ b.memB x = true := by
  rw [memB_iff_mem_toList, memB_iff_mem_toList a, memB_iff_mem_toList b]
  cases a with
  | interval s1 e1 =>
    cases b with
    | interval s2 e2 =>
      simp only [osUnion]
      split
      · next h1 =>
        simp only [OrderedSet.toList, List.mem_range'_1]
        omega
      · split
        · next h1 h2 =>
          simp only [OrderedSet.toList, List.mem_range'_1]
          omega
        · split
          · next h1 h2 h3 =>
            simp only [OrderedSet.toList, List.mem_range'_1]
            omega
          · next h1 h2 h3 =>
            simp only [OrderedSet.toList, mem_mergeLists]
    | sortedArray ys =>
      simp only [osUnion, OrderedSet.toList, mem_mergeLists]
  | sortedArray xs =>
    cases b with
    | interval s2 e2 =>
      simp only [osUnion, OrderedSet.toList, mem_mergeLists]
    | sortedArray ys =>
      simp only [osUnion, OrderedSet.toList, mem_mergeLists]

theorem osSubtract_memB (a b : OrderedSet) (x : Nat) :
    (osSubtract a b).memB x = true ↔ a.memB x = true ∧ b.memB x = false := by
  rw [memB_iff_mem_toList]
  have hrepr : (osSubtract a b).toList = a.toList.filter (fun y => !(b.memB y)) := rfl
  rw [hrepr, List.mem_filter, ← memB_iff_mem_toList]
  constructor
  · rintro ⟨h1, h2⟩
    refine ⟨h1, ?_⟩
    cases h : b.memB x
    · rfl
    · rw [h] at h2
      simp at h2
  · rintro ⟨h1, h2⟩
    exact ⟨h1, by rw [h2]; rfl⟩

theorem osAreIntersecting_true_iff (a b : OrderedSet) :
    osAreIntersecting a b = true ↔ ∃ x, a.memB x = true ∧ b.memB x = true := by
  simp only [osAreIntersecting, List.any_eq_true]
  constructor
  · rintro ⟨x, hx, hbx⟩
    exact ⟨x, (memB_iff_mem_toList a x).mpr hx, hbx⟩
  · rintro ⟨x, hax, hbx⟩
    exact ⟨x, (memB_iff_mem_toList a x).mp hax, hbx⟩

/-! ### Association-list (JS Map) lemmas -/

theorem mapGet_eq_none_iff {κ α : Type} [DecidableEq κ] (m : List (κ × α)) (k : κ) :
    mapGet m k = none ↔ ∀ kv ∈ m, kv.1 ≠ k := by
  simp [mapGet, List.find?_eq_none]

theorem mapGet_eq_some_mem {κ α : Type} [DecidableEq κ] (m : List (κ × α)) (k : κ) (v : α)
    (h : mapGet m k = some v) : ∃ kv ∈ m, kv.1 = k ∧ kv.2 = v := by
  simp only [mapGet, Option.map_eq_some'] at h
  obtain ⟨kv, hfind, hsnd⟩ := h
  refine ⟨kv, List.mem_of_find?_eq_some hfind, ?_, hsnd⟩
  have := List.find?_some hfind
  simpa using this

theorem key_unique_of_nodup {κ α : Type} [DecidableEq κ] (m : List (κ × α))
    (hn : (m.map Prod.fst).Nodup) (kv1 kv2 : κ × α)
    (h1 : kv1 ∈ m) (h2 : kv2 ∈ m) (hk : kv1.1 = kv2.1) : kv1 = kv2 := by
  induction m with
  | nil => simp at h1
  | cons p m ih =>
    simp only [List.map_cons, List.nodup_cons] at hn
    rcases List.mem_cons.mp h1 with rfl | h1m
    · rcases List.mem_cons.mp h2 with rfl | h2m
      · rfl
      · exact absurd (hk ▸ List.mem_map_of_mem Prod.fst h2m) hn.1
    · rcases List.mem_cons.mp h2 with rfl | h2m
      · exact absurd (hk ▸ List.mem_map_of_mem Prod.fst h1m) hn.1
      · exact ih hn.2 h1m h2m

theorem mem_mapDelete_iff {κ α : Type} [DecidableEq κ] (m : List (κ × α)) (k : κ) (kv : κ × α) :
    kv ∈ mapDelete m k ↔ kv ∈ m ∧ kv.1 ≠ k := by
  simp [mapDelete, List.mem_filter]

theorem nodupKeys_mapDelete {κ α : Type} [DecidableEq κ] (m : List (κ × α)) (k : κ)
    (hn : (m.map Prod.fst).Nodup) : ((mapDelete m k).map Prod.fst).Nodup := by
  have hsub : (mapDelete m k).Sublist m := List.filter_sublist m
  exact hn.sublist (hsub.map Prod.fst)

theorem mapSet_of_mapHas_false {κ α : Type} [DecidableEq κ] (m : List (κ × α)) (k : κ) (v : α)
    (h : mapHas m k = false) : mapSet m k v = m ++ [(k, v)] := by
  unfold mapSet
  unfold mapHas at h
  rw [h]
  simp

/-! ### Selection lemmas for the Loci algebra -/

theorem Structure.findUnit_id (s : Structure) (uid : Nat) : (s.findUnit uid).id = uid := by
  unfold Structure.findUnit
  cases hf : s.units.find? (fun u => u.id == uid) with
  | none => rfl
  | some u =>
    have hu := List.find?_some hf
    simp only [beq_iff_eq] at hu
    simpa using hu

/-- Selection through a predicate on index sets: some element of `es`
lists the unit id `uid` with indices satisfying `P`.  Instantiated at
`P := (memB · idx)` this is `Loci.selects`, at `P := True` membership in
`Loci.unitIds`. -/
def elemsSel (P : OrderedSet → Prop) (es : List LociElement) (uid : Nat) : Prop :=
  ∃ e ∈ es, e.unit.id = uid ∧ P e.indices

/-- `elemsSel` for an id-keyed index map. -/
def mapSel (P : OrderedSet → Prop) (m : List (Nat × OrderedSet)) (uid : Nat) : Prop :=
  ∃ kv ∈ m, kv.1 = uid ∧ P kv.2

theorem elemsSel_append (P : OrderedSet → Prop) (es fs : List LociElement) (uid : Nat) :
    elemsSel P (es ++ fs) uid ↔ elemsSel P es uid ∨ elemsSel P fs uid := by
  constructor
  · rintro ⟨e, he, hid, hp⟩
    rcases List.mem_append.mp he with h | h
    · exact Or.inl ⟨e, h, hid, hp⟩
    · exact Or.inr ⟨e, h, hid, hp⟩
  · rintro (⟨e, he, hid, hp⟩ | ⟨e, he, hid, hp⟩)
    · exact ⟨e, List.mem_append.mpr (Or.inl he), hid, hp⟩
    · exact ⟨e, List.mem_append.mpr (Or.inr he), hid, hp⟩

theorem elemsSel_nil (P : OrderedSet → Prop) (uid : Nat) : ¬ elemsSel P [] uid := by
  rintro ⟨e, he, _⟩
  simp at he

theorem elemsSel_cons (P : OrderedSet → Prop) (e : LociElement) (es : List LociElement) (uid : Nat) :
    elemsSel P (e :: es) uid ↔ (e.unit.id = uid ∧ P e.indices) ∨ elemsSel P es uid := by
  constructor
  · rintro ⟨f, hf, hid, hp⟩
    rcases List.mem_cons.mp hf with rfl | h
    · exact Or.inl ⟨hid, hp⟩
    · exact Or.inr ⟨f, h, hid, hp⟩
  · rintro (⟨hid, hp⟩ | ⟨f, hf, hid, hp⟩)
    · exact ⟨e, List.mem_cons_self e es, hid, hp⟩
    · exact ⟨f, List.mem_cons_of_mem e hf, hid, hp⟩

theorem foldl_mapSet_fresh (es : List LociElement) :
    ∀ (m0 : List (Nat × OrderedSet)),
      (∀ e ∈ es, mapHas m0 e.unit.id = false) →
      ((es.map (fun e => e.unit.id)).Nodup) →
      es.foldl (fun m e => mapSet m e.unit.id e.indices) m0
        = m0 ++ es.map (fun e => (e.unit.id, e.indices)) := by
  induction es with
  | nil => intro m0 _ _; simp
  | cons e es ih =>
    intro m0 hfresh hnd
    simp only [List.foldl_cons]
    rw [mapSet_of_mapHas_false _ _ _ (hfresh e (List.mem_cons_self e es))]
    have hfresh' : ∀ f ∈ es, mapHas (m0 ++ [(e.unit.id, e.indices)]) f.unit.id = false := by
      intro f hf
      have h1 : mapHas m0 f.unit.id = false := hfresh f (List.mem_cons_of_mem e hf)
      have h2 : f.unit.id ≠ e.unit.id := by
        simp only [List.map_cons, List.nodup_cons] at hnd
        intro hcontra
        exact hnd.1 (hcontra ▸ List.mem_map_of_mem _ hf)
      unfold mapHas at h1 ⊢
      simp only [List.any_append, h1, List.any_cons, List.any_nil, Bool.false_or, Bool.or_false]
      simpa using fun h => absurd h.symm h2
    have hnd' : (es.map (fun e => e.unit.id)).Nodup := by
      simp only [List.map_cons, List.nodup_cons] at hnd
      exact hnd.2
    rw [ih (m0 ++ [(e.unit.id, e.indices)]) hfresh' hnd']
    simp

theorem buildIndexMap_eq (es : List LociElement)
    (hnd : (es.map (fun e => e.unit.id)).Nodup) :
    Loci.buildIndexMap es = es.map (fun e => (e.unit.id, e.indices)) := by
  have h := foldl_mapSet_fresh es [] (fun e _ => rfl) hnd
  simpa [Loci.buildIndexMap] using h

theorem mapSel_assoc_iff (P : OrderedSet → Prop) (es : List LociElement) (uid : Nat) :
    mapSel P (es.map (fun e => (e.unit.id, e.indices))) uid ↔ elemsSel P es uid := by
  constructor
  · rintro ⟨kv, hkv, hid, hp⟩
    obtain ⟨e, he, rfl⟩ := List.mem_map.mp hkv
    exact ⟨e, he, hid, hp⟩
  · rintro ⟨e, he, hid, hp⟩
    exact ⟨(e.unit.id, e.indices), List.mem_map_of_mem _ he, hid, hp⟩

theorem nodupKeys_assoc (es : List LociElement)
    (hnd : (es.map (fun e => e.unit.id)).Nodup) :
    ((es.map (fun e => (e.unit.id, e.indices))).map Prod.fst).Nodup := by
  rw [List.map_map]
  exact hnd

theorem mapSel_delete_split (P : OrderedSet → Prop) (m : List (Nat × OrderedSet))
    (k : Nat) (ind : OrderedSet) (hm : (m.map Prod.fst).Nodup)
    (hget : mapGet m k = some ind) (uid : Nat) :
    mapSel P m uid ↔ (mapSel P (mapDelete m k) uid ∨ (k = uid ∧ P ind)) := by
  constructor
  · rintro ⟨kv, hkv, hid, hp⟩
    by_cases hk : kv.1 = k
    · right
      obtain ⟨kv', hkv', hk', hv'⟩ := mapGet_eq_some_mem m k ind hget
      have heq : kv = kv' := key_unique_of_nodup m hm kv kv' hkv hkv' (by rw [hk, hk'])
      subst heq
      exact ⟨hk ▸ hid, hv' ▸ hp⟩
    · exact Or.inl ⟨kv, (mem_mapDelete_iff m k kv).mpr ⟨hkv, hk⟩, hid, hp⟩
  · rintro (⟨kv, hkv, hid, hp⟩ | ⟨rfl, hp⟩)
    · exact ⟨kv, ((mem_mapDelete_iff m k kv).mp hkv).1, hid, hp⟩
    · obtain ⟨kv', hkv', hk', hv'⟩ := mapGet_eq_some_mem m k ind hget
      exact ⟨kv', hkv', hk', hv' ▸ hp⟩

theorem union_fold_sel (P : OrderedSet → Prop)
    (hP : ∀ i1 i2, P (osUnion i1 i2) ↔ P i1 ∨ P i2) (uid : Nat) :
    ∀ (ys acc : List LociElement) (m : List (Nat × OrderedSet)),
      (m.map Prod.fst).Nodup →
      ((elemsSel P (ys.foldl Loci.unionStep (acc, m)).1 uid
          ∨ mapSel P (ys.foldl Loci.unionStep (acc, m)).2 uid)
        ↔ (elemsSel P acc uid ∨ mapSel P m uid ∨ elemsSel P ys uid)) := by
  intro ys
  induction ys with
  | nil =>
    intro acc m _
    simp only [List.foldl_nil]
    have h := elemsSel_nil P uid
    tauto
  | cons e ys ih =>
    intro acc m hm
    simp only [List.foldl_cons]
    cases hget : mapGet m e.unit.id with
    | some ind =>
      have hstep : Loci.unionStep (acc, m) e
          = (acc ++ [⟨e.unit, osUnion ind e.indices⟩], mapDelete m e.unit.id) := by
        simp [Loci.unionStep, hget]
      rw [hstep, ih _ _ (nodupKeys_mapDelete m _ hm)]
      rw [elemsSel_append]
      have hsingle : elemsSel P [⟨e.unit, osUnion ind e.indices⟩] uid
          ↔ (e.unit.id = uid ∧ (P ind ∨ P e.indices)) := by
        rw [elemsSel_cons]
        have h := elemsSel_nil P uid
        have h2 := hP ind e.indices
        tauto
      rw [hsingle, elemsSel_cons]
      rw [mapSel_delete_split P m e.unit.id ind hm hget uid]
      tauto
    | none =>
      have hstep : Loci.unionStep (acc, m) e = (acc ++ [e], m) := by
        simp [Loci.unionStep, hget]
      rw [hstep, ih _ _ hm, elemsSel_append, elemsSel_cons P e List.nil uid,
        elemsSel_cons P e ys uid]
      have h := elemsSel_nil P uid
      tauto

theorem unionBody_sel (P : OrderedSet → Prop)
    (hP : ∀ i1 i2, P (osUnion i1 i2) ↔ P i1 ∨ P i2)
    (xs ys : Loci) (hnxs : (xs.elements.map (fun e => e.unit.id)).Nodup) (uid : Nat) :
    elemsSel P (Loci.unionBody xs ys).elements uid
      ↔ elemsSel P xs.elements uid ∨ elemsSel P ys.elements uid := by
  unfold Loci.unionBody
  split
  · next hlen =>
    rw [List.length_eq_zero] at hlen
    rw [hlen]
    have h := elemsSel_nil P uid
    tauto
  · next hlen =>
    simp only
    rw [elemsSel_append]
    rw [buildIndexMap_eq xs.elements hnxs]
    have hleft : elemsSel P
        ((ys.elements.foldl Loci.unionStep ([], xs.elements.map (fun e => (e.unit.id, e.indices)))).2.map
          (fun kv => ⟨xs.struct.findUnit kv.1, kv.2⟩)) uid
        ↔ mapSel P (ys.elements.foldl Loci.unionStep ([], xs.elements.map (fun e => (e.unit.id, e.indices)))).2 uid := by
      constructor
      · rintro ⟨f, hf, hid, hp⟩
        obtain ⟨kv, hkv, rfl⟩ := List.mem_map.mp hf
        refine ⟨kv, hkv, ?_, hp⟩
        rw [← hid]
        exact (Structure.findUnit_id xs.struct kv.1).symm
      · rintro ⟨kv, hkv, hid, hp⟩
        refine ⟨⟨xs.struct.findUnit kv.1, kv.2⟩, List.mem_map_of_mem _ hkv, ?_, hp⟩
        rw [Structure.findUnit_id]
        exact hid
    rw [hleft]
    have h := union_fold_sel P hP uid ys.elements [] (xs.elements.map (fun e => (e.unit.id, e.indices)))
      (nodupKeys_assoc xs.elements hnxs)
    rw [h, mapSel_assoc_iff]
    have h2 := elemsSel_nil P uid
    tauto

theorem union_sel (P : OrderedSet → Prop)
    (hP : ∀ i1 i2, P (osUnion i1 i2) ↔ P i1 ∨ P i2)
    (a b : Loci) (hna : (a.elements.map (fun e => e.unit.id)).Nodup)
    (hnb : (b.elements.map (fun e => e.unit.id)).Nodup) (uid : Nat) :
    elemsSel P (Loci.union a b).elements uid
      ↔ elemsSel P a.elements uid ∨ elemsSel P b.elements uid := by
  unfold Loci.union
  split
  · rw [unionBody_sel P hP b a hnb uid]
    tauto
  · exact unionBody_sel P hP a b hna uid

theorem foldl_append_flatten {α β : Type} (f : α → List β) (l : List α) :
    ∀ a : List β, l.foldl (fun acc e => acc ++ f e) a = a ++ (l.map f).flatten := by
  induction l with
  | nil => intro a; simp
  | cons e l ih =>
    intro a
    simp only [List.foldl_cons, List.map_cons, List.flatten_cons]
    rw [ih]
    simp

/-- The per-element contribution of `Loci.subtract`. -/
def subStep (m : List (Nat × OrderedSet)) (e : LociElement) : List LociElement :=
  match mapGet m e.unit.id with
  | some ind =>
    if (osSubtract e.indices ind).size = 0 then []
    else [⟨e.unit, osSubtract e.indices ind⟩]
  | none => [e]

theorem subtract_elements_eq (xs ys : Loci) :
    (Loci.subtract xs ys).elements
      = (xs.elements.map (subStep (Loci.buildIndexMap ys.elements))).flatten := by
  show xs.elements.foldl _ [] = _
  have hbody : (fun (acc : List LociElement) (e : LociElement) =>
      match mapGet (Loci.buildIndexMap ys.elements) e.unit.id with
      | some ind =>
        let indices := osSubtract e.indices ind
        if indices.size = 0 then acc else acc ++ [⟨e.unit, indices⟩]
      | none => acc ++ [e])
      = (fun acc e => acc ++ subStep (Loci.buildIndexMap ys.elements) e) := by
    funext acc e
    unfold subStep
    cases mapGet (Loci.buildIndexMap ys.elements) e.unit.id with
    | some ind =>
      simp only
      split <;> simp
    | none => rfl
  rw [hbody, foldl_append_flatten]
  simp

theorem selects_eq_elemsSel (l : Loci) (uid idx : Nat) :
    l.selects uid idx ↔ elemsSel (fun i => i.memB idx = true) l.elements uid := Iff.rfl

theorem subtract_selects (xs ys : Loci)
    (hnb : (ys.elements.map (fun e => e.unit.id)).Nodup) (uid idx : Nat) :
    (Loci.subtract xs ys).selects uid idx ↔ (xs.selects uid idx ∧ ¬ ys.selects uid idx) := by
  rw [selects_eq_elemsSel, subtract_elements_eq]
  rw [buildIndexMap_eq ys.elements hnb]
  constructor
  · rintro ⟨f, hf, hid, hp⟩
    obtain ⟨sub, hsub, hfsub⟩ := List.mem_flatten.mp hf
    obtain ⟨e, he, rfl⟩ := List.mem_map.mp hsub
    unfold subStep at hfsub
    cases hget : mapGet (ys.elements.map (fun e => (e.unit.id, e.indices))) e.unit.id with
    | some ind =>
      rw [hget] at hfsub
      simp only at hfsub
      split at hfsub
      · simp at hfsub
      · simp only [List.mem_singleton] at hfsub
        subst hfsub
        simp only at hid hp
        have hmem := (osSubtract_memB e.indices ind idx).mp hp
        refine ⟨⟨e, he, hid, hmem.1⟩, ?_⟩
        rintro ⟨g, hg, hgid, hgp⟩
        obtain ⟨kv, hkv, hkvk, hkvv⟩ := mapGet_eq_some_mem _ _ _ hget
        obtain ⟨e', he', hkve⟩ := List.mem_map.mp hkv
        have hk1 : e'.unit.id = kv.1 := congrArg Prod.fst hkve
        have hk2 : e'.indices = kv.2 := congrArg Prod.snd hkve
        have hfeq : (g.unit.id, g.indices) = (e'.unit.id, e'.indices) := by
          apply key_unique_of_nodup _ (nodupKeys_assoc ys.elements hnb)
            _ _ (List.mem_map_of_mem _ hg) (List.mem_map_of_mem _ he')
          show g.unit.id = e'.unit.id
          rw [hgid, ← hid, ← hkvk, hk1]
        have hind : g.indices = ind := by
          have h1 : g.indices = e'.indices := congrArg Prod.snd hfeq
          rw [h1, hk2, hkvv]
        rw [hind] at hgp
        rw [hmem.2] at hgp
        exact Bool.false_ne_true hgp
    | none =>
      rw [hget] at hfsub
      simp only [List.mem_singleton] at hfsub
      subst hfsub
      refine ⟨⟨f, he, hid, hp⟩, ?_⟩
      rintro ⟨g, hg, hgid, hgp⟩
      have hnone := (mapGet_eq_none_iff _ _).mp hget (g.unit.id, g.indices) (List.mem_map_of_mem _ hg)
      exact hnone (by rw [hgid, ← hid])
  · rintro ⟨⟨e, he, hid, hp⟩, hnotys⟩
    cases hget : mapGet (ys.elements.map (fun e => (e.unit.id, e.indices))) e.unit.id with
    | some ind =>
      have hindmem : ind.memB idx = false := by
        obtain ⟨kv, hkv, hkvk, hkvv⟩ := mapGet_eq_some_mem _ _ _ hget
        obtain ⟨e', he', hkve⟩ := List.mem_map.mp hkv
        cases hcase : ind.memB idx
        · rfl
        · exfalso
          apply hnotys
          refine ⟨e', he', ?_, ?_⟩
          · rw [show e'.unit.id = (e'.unit.id, e'.indices).1 from rfl, hkve, hkvk, hid]
          · rw [show e'.indices = (e'.unit.id, e'.indices).2 from rfl, hkve, hkvv, hcase]
      have hsubmem : (osSubtract e.indices ind).memB idx = true :=
        (osSubtract_memB e.indices ind idx).mpr ⟨hp, hindmem⟩
      refine ⟨⟨e.unit, osSubtract e.indices ind⟩, ?_, hid, hsubmem⟩
      apply List.mem_flatten.mpr
      refine ⟨subStep (ys.elements.map (fun e => (e.unit.id, e.indices))) e,
        List.mem_map_of_mem _ he, ?_⟩
      unfold subStep
      rw [hget]
      simp only
      split
      · next hsz => exact absurd hsz (memB_size_pos _ idx hsubmem)
      · exact List.mem_singleton.mpr rfl
    | none =>
      refine ⟨e, ?_, hid, hp⟩
      apply List.mem_flatten.mpr
      refine ⟨subStep (ys.elements.map (fun e => (e.unit.id, e.indices))) e,
        List.mem_map_of_mem _ he, ?_⟩
      unfold subStep
      rw [hget]
      exact List.mem_singleton.mpr rfl

theorem mem_unitIds_iff (l : Loci) (uid : Nat) :
    uid ∈ l.unitIds ↔ elemsSel (fun _ => True) l.elements uid := by
  unfold Loci.unitIds elemsSel
  rw [List.mem_map]
  constructor
  · rintro ⟨e, he, hid⟩
    exact ⟨e, he, hid, trivial⟩
  · rintro ⟨e, he, hid, _⟩
    exact ⟨e, he, hid⟩

/-! ### Claim theorems for the Loci algebra -/

/-- C2 (counterexample): on a concrete structure, `areIntersecting` of the
two empty selections `none(S)` evaluates to `true`, not `false` as the
claim states: the empty-side short-circuit returns whether the *other*
side is also empty. -/
theorem c2_areIntersecting_two_empty_true :
    Loci.areIntersecting (Loci.noneLoci ⟨[], 0, none⟩) (Loci.noneLoci ⟨[], 0, none⟩) = true := by
  rfl

/-- C2 (amended): `areIntersecting(a, b)` returns `true` when both
operands have an empty elements list, and returns `false` whenever
exactly one operand has an empty elements list. -/
theorem c2_areIntersecting_empty_cases (a b : Loci) :
    (a.elements = [] → b.elements = [] → Loci.areIntersecting a b = true)
    ∧ (a.elements = [] → b.elements ≠ [] → Loci.areIntersecting a b = false)
    ∧ (a.elements ≠ [] → b.elements = [] → Loci.areIntersecting a b = false) := by
  refine ⟨?_, ?_, ?_⟩
  · intro ha hb
    simp [Loci.areIntersecting, Loci.areIntersectingBody, ha, hb]
  · intro ha hb
    have hb' : b.elements.length ≠ 0 := by
      intro h
      exact hb (List.length_eq_zero.mp h)
    simp only [Loci.areIntersecting, ha]
    rw [if_neg (by simp)]
    simp [Loci.areIntersectingBody, ha, hb']
  · intro ha hb
    have ha' : a.elements.length ≠ 0 := by
      intro h
      exact ha (List.length_eq_zero.mp h)
    simp only [Loci.areIntersecting, hb]
    rw [if_pos (by simp; omega)]
    simp [Loci.areIntersectingBody, hb, ha']

/-- C2 witness: the amended theorem applied to concrete Loci — two
empties intersect (by the code's convention), an empty against a
non-empty does not. -/
theorem c2_areIntersecting_empty_cases_witness :
    Loci.areIntersecting (Loci.noneLoci ⟨[⟨1, 1⟩], 0, none⟩) (Loci.noneLoci ⟨[⟨1, 1⟩], 0, none⟩) = true
    ∧ Loci.areIntersecting (Loci.noneLoci ⟨[⟨1, 1⟩], 0, none⟩)
        ⟨⟨[⟨1, 1⟩], 0, none⟩, [⟨⟨1, 1⟩, .interval 0 2⟩]⟩ = false :=
  ⟨(c2_areIntersecting_empty_cases (Loci.noneLoci ⟨[⟨1, 1⟩], 0, none⟩)
      (Loci.noneLoci ⟨[⟨1, 1⟩], 0, none⟩)).1 rfl rfl,
   (c2_areIntersecting_empty_cases (Loci.noneLoci ⟨[⟨1, 1⟩], 0, none⟩)
      ⟨⟨[⟨1, 1⟩], 0, none⟩, [⟨⟨1, 1⟩, .interval 0 2⟩]⟩).2.1 rfl (by simp)⟩

/-- C6: `union(a, none(S))` literally returns `a`; and `union(a, b)` and
`union(b, a)` are set-equal — they list the same unit ids and select the
same `(unit id, index)` pairs — for Loci over the same structure
respecting the one-entry-per-unit-id invariant. -/
theorem c6_union_identity_comm (S : Structure) (a b : Loci)
    (ha : a.struct = S) (hab : a.struct = b.struct)
    (hna : a.unitIds.Nodup) (hnb : b.unitIds.Nodup) :
    Loci.union a (Loci.noneLoci S) = a
    ∧ (∀ uid, uid ∈ (Loci.union a b).unitIds ↔ uid ∈ (Loci.union b a).unitIds)
    ∧ (∀ uid idx, (Loci.union a b).selects uid idx ↔ (Loci.union b a).selects uid idx) := by
  refine ⟨?_, ?_, ?_⟩
  · cases a with
    | mk astruct aelems =>
      cases aelems with
      | nil =>
        simp only [Loci.union, Loci.noneLoci, List.length_nil]
        rw [if_neg (by omega)]
        simp only [Loci.unionBody, List.length_nil, if_pos rfl]
        simp only at ha
        rw [ha]
        simp
      | cons e es =>
        simp only [Loci.union, Loci.noneLoci, List.length_nil, List.length_cons]
        rw [if_pos (by omega)]
        simp [Loci.unionBody]
  · intro uid
    rw [mem_unitIds_iff, mem_unitIds_iff]
    have hP : ∀ i1 i2 : OrderedSet, True ↔ (True ∨ True) := by tauto
    rw [union_sel (fun _ => True) (fun i1 i2 => hP i1 i2) a b hna hnb uid]
    rw [union_sel (fun _ => True) (fun i1 i2 => hP i1 i2) b a hnb hna uid]
    tauto
  · intro uid idx
    rw [selects_eq_elemsSel, selects_eq_elemsSel]
    rw [union_sel (fun i => i.memB idx = true) (fun i1 i2 => osUnion_memB i1 i2 idx) a b hna hnb uid]
    rw [union_sel (fun i => i.memB idx = true) (fun i1 i2 => osUnion_memB i1 i2 idx) b a hnb hna uid]
    tauto

/-- C6 witness: the theorem applied to concrete two-unit Loci, yielding
the literal identity equation and one instance of each set-equality. -/
theorem c6_union_identity_comm_witness :
    Loci.union ⟨⟨[⟨1, 1⟩, ⟨2, 1⟩], 0, none⟩, [⟨⟨1, 1⟩, .interval 0 2⟩]⟩
        (Loci.noneLoci ⟨[⟨1, 1⟩, ⟨2, 1⟩], 0, none⟩)
      = ⟨⟨[⟨1, 1⟩, ⟨2, 1⟩], 0, none⟩, [⟨⟨1, 1⟩, .interval 0 2⟩]⟩
    ∧ (1 ∈ (Loci.union ⟨⟨[⟨1, 1⟩, ⟨2, 1⟩], 0, none⟩, [⟨⟨1, 1⟩, .interval 0 2⟩]⟩
          ⟨⟨[⟨1, 1⟩, ⟨2, 1⟩], 0, none⟩, [⟨⟨2, 1⟩, .sortedArray [5]⟩]⟩).unitIds
        ↔ 1 ∈ (Loci.union ⟨⟨[⟨1, 1⟩, ⟨2, 1⟩], 0, none⟩, [⟨⟨2, 1⟩, .sortedArray [5]⟩]⟩
          ⟨⟨[⟨1, 1⟩, ⟨2, 1⟩], 0, none⟩, [⟨⟨1, 1⟩, .interval 0 2⟩]⟩).unitIds) :=
  ⟨(c6_union_identity_comm ⟨[⟨1, 1⟩, ⟨2, 1⟩], 0, none⟩
      ⟨⟨[⟨1, 1⟩, ⟨2, 1⟩], 0, none⟩, [⟨⟨1, 1⟩, .interval 0 2⟩]⟩
      ⟨⟨[⟨1, 1⟩, ⟨2, 1⟩], 0, none⟩, [⟨⟨2, 1⟩, .sortedArray [5]⟩]⟩
      rfl rfl (by decide) (by decide)).1,
   (c6_union_identity_comm ⟨[⟨1, 1⟩, ⟨2, 1⟩], 0, none⟩
      ⟨⟨[⟨1, 1⟩, ⟨2, 1⟩], 0, none⟩, [⟨⟨1, 1⟩, .interval 0 2⟩]⟩
      ⟨⟨[⟨1, 1⟩, ⟨2, 1⟩], 0, none⟩, [⟨⟨2, 1⟩, .sortedArray [5]⟩]⟩
      rfl rfl (by decide) (by decide)).2.1 1⟩

/-- C5: for Loci `a`, `b` over the same structure (one entry per unit id)
sharing no `(unit id, index)` pair, `subtract(union(a, b), b)` selects
exactly the pairs of `a`: per unit the second operand's indices are
removed and a unit whose remaining index set is empty is dropped. -/
theorem c5_subtract_union_disjoint (a b : Loci)
    (hab : a.struct = b.struct)
    (hna : a.unitIds.Nodup) (hnb : b.unitIds.Nodup)
    (hdisj : ∀ uid idx, ¬(a.selects uid idx ∧ b.selects uid idx)) :
    ∀ uid idx, (Loci.subtract (Loci.union a b) b).selects uid idx ↔ a.selects uid idx := by
  intro uid idx
  rw [subtract_selects _ b hnb uid idx]
  have hu := union_sel (fun i => i.memB idx = true) (fun i1 i2 => osUnion_memB i1 i2 idx)
    a b hna hnb uid
  rw [selects_eq_elemsSel, hu]
  rw [← selects_eq_elemsSel, ← selects_eq_elemsSel]
  have hd := hdisj uid idx
  tauto

/-- C5 witness: the theorem applied to concrete disjoint Loci sharing a
unit: subtracting `b` from `union(a, b)` selects exactly `a`'s pair. -/
theorem c5_subtract_union_disjoint_witness :
    (Loci.subtract
        (Loci.union ⟨⟨[⟨1, 1⟩], 0, none⟩, [⟨⟨1, 1⟩, .sortedArray [0]⟩]⟩
          ⟨⟨[⟨1, 1⟩], 0, none⟩, [⟨⟨1, 1⟩, .sortedArray [3]⟩]⟩)
        ⟨⟨[⟨1, 1⟩], 0, none⟩, [⟨⟨1, 1⟩, .sortedArray [3]⟩]⟩).selects 1 0
      ↔ (Loci.mk ⟨[⟨1, 1⟩], 0, none⟩ [⟨⟨1, 1⟩, .sortedArray [0]⟩]).selects 1 0 :=
  c5_subtract_union_disjoint
    ⟨⟨[⟨1, 1⟩], 0, none⟩, [⟨⟨1, 1⟩, .sortedArray [0]⟩]⟩
    ⟨⟨[⟨1, 1⟩], 0, none⟩, [⟨⟨1, 1⟩, .sortedArray [3]⟩]⟩
    rfl (by decide) (by decide)
    (by
      rintro uid idx ⟨⟨e, he, hid, hp⟩, ⟨f, hf, hfid, hfp⟩⟩
      simp only [List.mem_singleton] at he hf
      subst he
      subst hf
      simp only [OrderedSet.memB, List.contains_cons, List.contains_nil] at hp hfp
      simp at hp hfp
      omega) 1 0

/-! ### Claim theorems for Query replay and the runtime symbols -/

/-- C1 (code evaluation at the failing input): a Query with `hash = 5`
(set, i.e. different from `-1`) replayed by `toLoci` against a parent
whose root `hashCode` is `7` does not signal failure: the mismatch guard
merely constructs and discards an `Error`, and the call returns the fully
reconstructed Loci. -/
theorem c1_toLoci_hash_mismatch_proceeds :
    ((5 : Int) ≠ -1)
    ∧ (5 : Int) ≠ (Structure.mk [⟨1, 1⟩] 7 none).rootHash
    ∧ toLoci ⟨5, [⟨[[1]], [0], []⟩]⟩ (Structure.mk [⟨1, 1⟩] 7 none)
        = ⟨Structure.mk [⟨1, 1⟩] 7 none, [⟨⟨1, 1⟩, .sortedArray [0]⟩]⟩ := by
  refine ⟨by decide, by decide, by decide⟩

/-- C7: evaluating the `linkFlags` symbol on `['covalent', 'bogus']`
yields `LinkType.Flag.Covalent` alone; a recognized keyword contributes
its bit by bitwise-or and an unrecognized keyword leaves the accumulator
unchanged (and, `linkFlag` being total, raises no error). -/
theorem c7_linkFlags_covalent_bogus :
    linkFlags ["covalent", "bogus"] = covalentFlag
    ∧ (∀ current : Nat, linkFlag current "bogus" = current)
    ∧ (∀ current : Nat, linkFlag current "covalent" = current ||| covalentFlag) := by
  refine ⟨by decide, ?_, ?_⟩
  · intro current
    simp only [linkFlag]
    rw [if_neg (by decide), if_neg (by decide), if_neg (by decide), if_neg (by decide),
      if_neg (by decide), if_neg (by decide), if_neg (by decide)]
  · intro current
    simp only [linkFlag]
    rw [if_pos (by decide)]

/-- C8 (counterexample): `hasAny(1, 0)` evaluates to `true` although `1`
is not falsy — the claim's "true exactly when the tested value itself is
falsy" predicts `false` there. -/
theorem c8_hasAny_zero_mask_counterexample :
    hasAny 1 0 = true ∧ (1 : Nat) ≠ 0 := ⟨rfl, by decide⟩

/-- C8 (amended): with a zero test-mask the bitflag operations do not
return true unconditionally: `hasAny(tested, 0)` is true exactly when the
tested value itself is truthy (nonzero), and `hasAll(tested, 0)` is true
exactly when the tested value matches all-zero. -/
theorem c8_flags_zero_mask (tested : Nat) :
    (hasAny tested 0 = true ↔ tested ≠ 0)
    ∧ (hasAll tested 0 = true ↔ tested = 0) := by
  constructor
  · simp [hasAny]
  · simp [hasAll]

/-- C10: the `layerCount` forwarded by the `includeConnected` symbol is
`1` when the `'layer-count'` argument is absent and also whenever the
supplied thunk evaluates to the falsy `0`; it is never `0`, so zero
bond-hop layers cannot be requested. -/
theorem c10_includeConnected_layerCount (ctx : QueryContext)
    (arg : Option (QueryContext → Int)) :
    (arg = none → includeConnectedLayerCount ctx arg = 1)
    ∧ (∀ f, arg = some f → f ctx = 0 → includeConnectedLayerCount ctx arg = 1)
    ∧ includeConnectedLayerCount ctx arg ≠ 0 := by
  refine ⟨?_, ?_, ?_⟩
  · rintro rfl
    rfl
  · rintro f rfl hf
    simp [includeConnectedLayerCount, hf]
  · cases arg with
    | none =>
      simp [includeConnectedLayerCount]
    | some f =>
      simp only [includeConnectedLayerCount]
      split
      · decide
      · next h => exact h

/-- C10 witness: the theorem applied to a thunk returning `0` and to the
absent argument. -/
theorem c10_includeConnected_layerCount_witness :
    includeConnectedLayerCount ⟨0⟩ (some fun _ => 0) = 1
    ∧ includeConnectedLayerCount ⟨0⟩ none = 1 :=
  ⟨(c10_includeConnected_layerCount ⟨0⟩ (some fun _ => 0)).2.1 (fun _ => 0) rfl rfl,
   (c10_includeConnected_layerCount ⟨0⟩ none).1 rfl⟩

/-! ### Run-splitting lemmas -/

theorem takeRun_split (prev : Nat) (l : List Nat) :
    l = (takeRun prev l).1 ++ (takeRun prev l).2 := by
  induction l generalizing prev with
  | nil => rfl
  | cons y ys ih =>
    simp only [takeRun]
    split
    · simpa using ih y
    · rfl

theorem takeRun_run_range (prev : Nat) (l : List Nat) :
    prev :: (takeRun prev l).1 = List.range' prev ((takeRun prev l).1.length + 1) := by
  induction l generalizing prev with
  | nil => rfl
  | cons y ys ih =>
    simp only [takeRun]
    split
    · next hy =>
      simp only [List.length_cons]
      rw [List.range'_succ, ← hy]
      congr 1
      exact ih (prev + 1)
    · rfl

theorem takeRun_getLastD (prev : Nat) (l : List Nat) :
    (prev :: (takeRun prev l).1).getLastD 0 = prev + (takeRun prev l).1.length := by
  rw [takeRun_run_range]
  have h := @List.range'_concat 1 prev (takeRun prev l).1.length
  simp only [one_mul] at h
  rw [h]
  simp

theorem takeRun_rest_lb (prev : Nat) (l : List Nat)
    (hs : List.Sorted (· < ·) (prev :: l)) :
    ∀ v ∈ (takeRun prev l).2, prev + (takeRun prev l).1.length + 2 ≤ v := by
  induction l generalizing prev with
  | nil => intro v hv; simp [takeRun] at hv
  | cons y ys ih =>
    simp only [takeRun]
    split
    · next hy =>
      intro v hv
      simp only at hv
      have hs' : List.Sorted (· < ·) (y :: ys) := (List.sorted_cons.mp hs).2
      have h := ih y hs' v hv
      simp only [List.length_cons]
      omega
    · next hy =>
      intro v hv
      simp only at hv
      rw [List.sorted_cons] at hs
      rcases List.mem_cons.mp hv with rfl | hvm
      · have := hs.1 v (List.mem_cons_self v ys)
        simp only [List.length_nil]
        omega
      · have h1 := hs.1 y (List.mem_cons_self y ys)
        have h2 := (List.sorted_cons.mp hs.2).1 v hvm
        simp only [List.length_nil]
        omega

theorem takeRun_sorted_rest (prev : Nat) (l : List Nat)
    (hs : List.Sorted (· < ·) l) : List.Sorted (· < ·) (takeRun prev l).2 := by
  have hsub : (takeRun prev l).2.Sublist l := by
    conv_rhs => rw [takeRun_split prev l]
    exact List.sublist_append_right _ _
  exact hs.sublist hsub

/-- Membership in a pattern: listed in `set`, or inside one of `ranges`. -/
def patternMem (p : Pattern) (x : Nat) : Prop :=
  x ∈ p.1 ∨ ∃ r ∈ p.2, r.1 ≤ x ∧ x ≤ r.2

theorem splitRuns_cover (xs : List Nat) (x : Nat) :
    patternMem (splitRuns xs) x ↔ x ∈ xs := by
  induction xs using splitRuns.induct with
  | case1 => simp [splitRuns, patternMem]
  | case2 y ys tr run hgt ih =>
    rw [splitRuns]
    rw [if_pos hgt]
    have hsplit : y :: ys = (y :: (takeRun y ys).1) ++ (takeRun y ys).2 := by
      rw [List.cons_append]
      congr 1
      exact takeRun_split y ys
    have hxm : x ∈ y :: ys ↔ (x ∈ y :: (takeRun y ys).1 ∨ x ∈ (takeRun y ys).2) := by
      conv_lhs => rw [hsplit]
      exact List.mem_append
    have hrunm : x ∈ y :: (takeRun y ys).1 ↔ (y ≤ x ∧ x ≤ y + (takeRun y ys).1.length) := by
      rw [takeRun_run_range, List.mem_range'_1]
      omega
    rw [hxm, hrunm]
    rw [takeRun_getLastD]
    unfold patternMem at ih ⊢
    constructor
    · rintro (hset | ⟨r, hr, hrx1, hrx2⟩)
      · exact Or.inr (ih.mp (Or.inl hset))
      · rcases List.mem_cons.mp hr with rfl | hrrest
        · exact Or.inl ⟨hrx1, hrx2⟩
        · exact Or.inr (ih.mp (Or.inr ⟨r, hrrest, hrx1, hrx2⟩))
    · rintro (⟨h1, h2⟩ | hrest)
      · exact Or.inr ⟨(y, y + (takeRun y ys).1.length), List.mem_cons_self _ _, h1, h2⟩
      · rcases ih.mpr hrest with hset | ⟨r, hr, h1, h2⟩
        · exact Or.inl hset
        · exact Or.inr ⟨r, List.mem_cons_of_mem _ hr, h1, h2⟩
  | case3 y ys tr run hle ih =>
    rw [splitRuns]
    rw [if_neg hle]
    have hsplit : y :: ys = (y :: (takeRun y ys).1) ++ (takeRun y ys).2 := by
      rw [List.cons_append]
      congr 1
      exact takeRun_split y ys
    have hxm : x ∈ y :: ys ↔ (x ∈ y :: (takeRun y ys).1 ∨ x ∈ (takeRun y ys).2) := by
      conv_lhs => rw [hsplit]
      exact List.mem_append
    rw [hxm]
    unfold patternMem at ih ⊢
    simp only [List.mem_append]
    constructor
    · rintro ((hrun | hset) | ⟨r, hr, h1, h2⟩)
      · exact Or.inl hrun
      · exact Or.inr (ih.mp (Or.inl hset))
      · exact Or.inr (ih.mp (Or.inr ⟨r, hr, h1, h2⟩))
    · rintro (hrun | hrest)
      · exact Or.inl (Or.inl hrun)
      · rcases ih.mpr hrest with hset | ⟨r, hr, h1, h2⟩
        · exact Or.inl (Or.inr hset)
        · exact Or.inr ⟨r, hr, h1, h2⟩

theorem splitRuns_ranges_len (xs : List Nat) :
    ∀ r ∈ (splitRuns xs).2, r.1 + 2 ≤ r.2 := by
  induction xs using splitRuns.induct with
  | case1 => simp [splitRuns]
  | case2 y ys tr run hgt ih =>
    rw [splitRuns]
    rw [if_pos hgt]
    intro r hr
    rcases List.mem_cons.mp hr with rfl | hr
    · have hgt2 : 2 < (takeRun y ys).1.length + 1 := by simpa using hgt
      simp only [takeRun_getLastD]
      omega
    · exact ih r hr
  | case3 y ys tr run hle ih =>
    rw [splitRuns]
    rw [if_neg hle]
    intro r hr
    exact ih r hr

theorem takeRun_run_mem (y : Nat) (ys : List Nat) (u : Nat) :
    u ∈ y :: (takeRun y ys).1 ↔ (y ≤ u ∧ u ≤ y + (takeRun y ys).1.length) := by
  rw [takeRun_run_range, List.mem_range'_1]
  omega

theorem takeRun_mem_split (y : Nat) (ys : List Nat) (u : Nat) :
    u ∈ y :: ys ↔ ((y ≤ u ∧ u ≤ y + (takeRun y ys).1.length) ∨ u ∈ (takeRun y ys).2) := by
  rw [← takeRun_run_mem]
  constructor
  · intro hu
    have hx : y :: ys = (y :: (takeRun y ys).1) ++ (takeRun y ys).2 := by
      rw [List.cons_append]
      congr 1
      exact takeRun_split y ys
    rw [hx] at hu
    exact List.mem_append.mp hu
  · intro hu
    have hx : y :: ys = (y :: (takeRun y ys).1) ++ (takeRun y ys).2 := by
      rw [List.cons_append]
      congr 1
      exact takeRun_split y ys
    rw [hx]
    exact List.mem_append.mpr hu

theorem splitRuns_sorted_props (xs : List Nat) :
    List.Sorted (· < ·) xs →
    ((∀ u, ¬(u ∈ (splitRuns xs).1 ∧ ∃ r ∈ (splitRuns xs).2, r.1 ≤ u ∧ u ≤ r.2))
    ∧ (∀ r ∈ (splitRuns xs).2, ∀ z ∈ xs, z + 1 ≠ r.1)
    ∧ (∀ r ∈ (splitRuns xs).2, r.2 + 1 ∉ xs)
    ∧ (∀ s ∈ (splitRuns xs).1, ¬((∃ z ∈ xs, z + 1 = s) ∧ s + 1 ∈ xs))) := by
  induction xs using splitRuns.induct with
  | case1 =>
    intro _
    simp [splitRuns]
  | case2 y ys tr run hgt ih =>
    intro hs
    rw [splitRuns]
    rw [if_pos hgt]
    simp only [takeRun_getLastD]
    have hsys : List.Sorted (· < ·) ys := (List.sorted_cons.mp hs).2
    have hs2 : List.Sorted (· < ·) (takeRun y ys).2 := takeRun_sorted_rest y ys hsys
    obtain ⟨ihA, ihB, ihC, ihD⟩ := ih hs2
    have hlb := takeRun_rest_lb y ys hs
    have hcov := fun u => splitRuns_cover (takeRun y ys).2 u
    have hrlen := splitRuns_ranges_len (takeRun y ys).2
    have hsetrest : ∀ u ∈ (splitRuns (takeRun y ys).2).1, u ∈ (takeRun y ys).2 :=
      fun u hu => (hcov u).mp (Or.inl hu)
    have hrangerest : ∀ r ∈ (splitRuns (takeRun y ys).2).2, ∀ u, r.1 ≤ u → u ≤ r.2 → u ∈ (takeRun y ys).2 :=
      fun r hr u h1 h2 => (hcov u).mp (Or.inr ⟨r, hr, h1, h2⟩)
    refine ⟨?_, ?_, ?_, ?_⟩
    · rintro u ⟨huset, r, hr, h1, h2⟩
      have hu2 := hlb u (hsetrest u huset)
      rcases List.mem_cons.mp hr with rfl | hrrest
      · have h2y : u ≤ y + (takeRun y ys).1.length := h2
        omega
      · exact ihA u ⟨huset, r, hrrest, h1, h2⟩
    · intro r hr z hz heq
      rcases List.mem_cons.mp hr with rfl | hrrest
      · have heqy : z + 1 = y := heq
        rcases (takeRun_mem_split y ys z).mp hz with ⟨hz1, _⟩ | hz2
        · omega
        · have := hlb z hz2
          omega
      · have hr1mem : r.1 ∈ (takeRun y ys).2 :=
          hrangerest r hrrest r.1 le_rfl (by have := hrlen r hrrest; omega)
        have hr1lb := hlb _ hr1mem
        rcases (takeRun_mem_split y ys z).mp hz with ⟨hz1, hz2⟩ | hz2
        · omega
        · exact ihB r hrrest z hz2 heq
    · intro r hr hmem
      rcases List.mem_cons.mp hr with rfl | hrrest
      · have hmem2 : y + (takeRun y ys).1.length + 1 ∈ y :: ys := hmem
        rcases (takeRun_mem_split y ys _).mp hmem2 with ⟨h1, h2⟩ | h2
        · omega
        · have := hlb _ h2
          omega
      · have hr2mem : r.2 ∈ (takeRun y ys).2 :=
          hrangerest r hrrest r.2 (by have := hrlen r hrrest; omega) le_rfl
        have hr2lb := hlb _ hr2mem
        rcases (takeRun_mem_split y ys _).mp hmem with ⟨h1, h2⟩ | h2
        · omega
        · exact ihC r hrrest h2
    · rintro s hset ⟨⟨z, hz, hz1⟩, hs1⟩
      have hslb := hlb s (hsetrest s hset)
      have hz2 : z ∈ (takeRun y ys).2 := by
        rcases (takeRun_mem_split y ys z).mp hz with ⟨_, hzz⟩ | h
        · omega
        · exact h
      have hs12 : s + 1 ∈ (takeRun y ys).2 := by
        rcases (takeRun_mem_split y ys _).mp hs1 with ⟨_, hzz⟩ | h
        · omega
        · exact h
      exact ihD s hset ⟨⟨z, hz2, hz1⟩, hs12⟩
  | case3 y ys tr run hle ih =>
    intro hs
    rw [splitRuns]
    rw [if_neg hle]
    have hn1 : (takeRun y ys).1.length ≤ 1 := by
      have hle2 : ¬ (y :: (takeRun y ys).1).length > 2 := hle
      simp only [List.length_cons, gt_iff_lt, not_lt] at hle2
      omega
    have hsys : List.Sorted (· < ·) ys := (List.sorted_cons.mp hs).2
    have hs2 : List.Sorted (· < ·) (takeRun y ys).2 := takeRun_sorted_rest y ys hsys
    obtain ⟨ihA, ihB, ihC, ihD⟩ := ih hs2
    have hlb := takeRun_rest_lb y ys hs
    have hcov := fun u => splitRuns_cover (takeRun y ys).2 u
    have hrlen := splitRuns_ranges_len (takeRun y ys).2
    have hsetrest : ∀ u ∈ (splitRuns (takeRun y ys).2).1, u ∈ (takeRun y ys).2 :=
      fun u hu => (hcov u).mp (Or.inl hu)
    have hrangerest : ∀ r ∈ (splitRuns (takeRun y ys).2).2, ∀ u, r.1 ≤ u → u ≤ r.2 → u ∈ (takeRun y ys).2 :=
      fun r hr u h1 h2 => (hcov u).mp (Or.inr ⟨r, hr, h1, h2⟩)
    refine ⟨?_, ?_, ?_, ?_⟩
    · rintro u ⟨huset, r, hr, h1, h2⟩
      have hr1mem : r.1 ∈ (takeRun y ys).2 :=
        hrangerest r hr r.1 le_rfl (by have := hrlen r hr; omega)
      have hr1lb := hlb _ hr1mem
      rcases List.mem_append.mp huset with hrun | hrest
      · have := (takeRun_run_mem y ys u).mp hrun
        omega
      · exact ihA u ⟨hrest, r, hr, h1, h2⟩
    · intro r hr z hz heq
      have hr1mem : r.1 ∈ (takeRun y ys).2 :=
        hrangerest r hr r.1 le_rfl (by have := hrlen r hr; omega)
      have hr1lb := hlb _ hr1mem
      rcases (takeRun_mem_split y ys z).mp hz with ⟨hz1, hz2⟩ | hz2
      · omega
      · exact ihB r hr z hz2 heq
    · intro r hr hmem
      have hr2mem : r.2 ∈ (takeRun y ys).2 :=
        hrangerest r hr r.2 (by have := hrlen r hr; omega) le_rfl
      have hr2lb := hlb _ hr2mem
      rcases (takeRun_mem_split y ys _).mp hmem with ⟨h1, h2⟩ | h2
      · omega
      · exact ihC r hr h2
    · rintro s hset ⟨⟨z, hz, hz1⟩, hs1⟩
      rcases List.mem_append.mp hset with hrun | hrest
      · have hsrun := (takeRun_run_mem y ys s).mp hrun
        by_cases hsy : s = y
        · rcases (takeRun_mem_split y ys z).mp hz with ⟨hz2, _⟩ | hz2
          · omega
          · have := hlb z hz2
            omega
        · have hstop : s = y + (takeRun y ys).1.length := by omega
          rcases (takeRun_mem_split y ys (s + 1)).mp hs1 with ⟨_, hx⟩ | hx
          · omega
          · have := hlb _ hx
            omega
      · have hslb := hlb s (hsetrest s hrest)
        have hz2 : z ∈ (takeRun y ys).2 := by
          rcases (takeRun_mem_split y ys z).mp hz with ⟨_, hzz⟩ | h
          · omega
          · exact h
        have hs12 : s + 1 ∈ (takeRun y ys).2 := by
          rcases (takeRun_mem_split y ys _).mp hs1 with ⟨_, hzz⟩ | h
          · omega
          · exact h
        exact ihD s hrest ⟨⟨z, hz2, hz1⟩, hs12⟩

/-- C4 (counterexample): a Loci element whose index set is the Interval
`{5, 6}` — a maximal run of only 2 consecutive indices — is encoded by
`Query.fromLoci` with `ranges = [[5, 6]]` and an empty `set`: the
interval branch of the encoder emits every interval of size ≥ 2 as a
range, so a 2-long run is *not* stored as individual set members as the
claim states. -/
theorem c4_interval_two_run_counterexample :
    patternOf (.interval 5 7) = ([], [(5, 6)])
    ∧ OrderedSet.size (.interval 5 7) = 2 := ⟨rfl, rfl⟩

/-- C4 (amended): the concrete scenario holds —
`{0,…,12, 50, 51}` (as a SortedArray) encodes as `ranges = [0, 12]`,
`set = [50, 51]` — and for every SortedArray-represented index set the
stated rule holds: `set` and `ranges` partition the indices without
overlap, every emitted range is a maximal run of more than 2 consecutive
indices, and every `set` member lies in a maximal run of at most 2
(no set member has both neighbours present).  An Interval-represented
index set instead always becomes a single range when its size is ≥ 2
(even a run of exactly 2) and a single set member when its size is 1. -/
theorem c4_range_set_split (xs : List Nat) (hs : List.Sorted (· < ·) xs) :
    patternOf (.sortedArray [0, 1, 2, 3, 4, 5, 6, 7, 8, 9, 10, 11, 12, 50, 51])
        = ([50, 51], [(0, 12)])
    ∧ (∀ x, patternMem (patternOf (.sortedArray xs)) x ↔ x ∈ xs)
    ∧ (∀ u, ¬(u ∈ (patternOf (.sortedArray xs)).1
        ∧ ∃ r ∈ (patternOf (.sortedArray xs)).2, r.1 ≤ u ∧ u ≤ r.2))
    ∧ (∀ r ∈ (patternOf (.sortedArray xs)).2,
        r.1 + 2 ≤ r.2 ∧ (∀ y, r.1 ≤ y → y ≤ r.2 → y ∈ xs)
        ∧ (∀ z ∈ xs, z + 1 ≠ r.1) ∧ r.2 + 1 ∉ xs)
    ∧ (∀ s ∈ (patternOf (.sortedArray xs)).1,
        s ∈ xs ∧ ¬((∃ z ∈ xs, z + 1 = s) ∧ s + 1 ∈ xs))
    ∧ (∀ s e : Nat, 2 ≤ e - s → patternOf (.interval s e) = ([], [(s, e - 1)]))
    ∧ (∀ s e : Nat, e - s = 1 → patternOf (.interval s e) = ([s], [])) := by
  obtain ⟨hA, hB, hC, hD⟩ := splitRuns_sorted_props xs hs
  have hcov := fun x => splitRuns_cover xs x
  have hlen := splitRuns_ranges_len xs
  refine ⟨by simp [patternOf, splitRuns, takeRun], ?_, ?_, ?_, ?_, ?_, ?_⟩
  · intro x
    exact hcov x
  · intro u
    exact hA u
  · intro r hr
    refine ⟨hlen r hr, ?_, hB r hr, hC r hr⟩
    intro y h1 h2
    exact (hcov y).mp (Or.inr ⟨r, hr, h1, h2⟩)
  · intro s hset
    exact ⟨(hcov s).mp (Or.inl hset), hD s hset⟩
  · intro s e hse
    simp only [patternOf, OrderedSet.size]
    rw [if_neg (by omega)]
    rfl
  · intro s e hse
    simp only [patternOf, OrderedSet.size]
    rw [if_pos hse]

/-- C4 witness: the amended theorem at the claim's concrete index set,
projecting the concrete encoding equation and the interval rules at
`{5, 6}` and `{4}`. -/
theorem c4_range_set_split_witness :
    patternOf (.sortedArray [0, 1, 2, 3, 4, 5, 6, 7, 8, 9, 10, 11, 12, 50, 51])
        = ([50, 51], [(0, 12)])
    ∧ patternOf (.interval 5 7) = ([], [(5, 6)])
    ∧ patternOf (.interval 4 5) = ([4], []) :=
  ⟨(c4_range_set_split [0, 1, 2, 3, 4, 5, 6, 7, 8, 9, 10, 11, 12, 50, 51] (by decide)).1,
   (c4_range_set_split [] (by decide)).2.2.2.2.2.1 5 7 (by decide),
   (c4_range_set_split [] (by decide)).2.2.2.2.2.2 4 5 (by decide)⟩

/-! ### Round-trip lemmas for Query.fromLoci / Query.toLoci -/

theorem patternOf_mem (o : OrderedSet) (x : Nat) (hsz : o.size ≠ 0) :
    patternMem (patternOf o) x ↔ o.memB x = true := by
  cases o with
  | interval s e =>
    simp only [OrderedSet.size] at hsz
    simp only [patternOf, OrderedSet.size, OrderedSet.intervalMin, OrderedSet.intervalMax]
    split
    · next h1 =>
      simp only [patternMem, List.mem_singleton, List.not_mem_nil, OrderedSet.memB,
        decide_eq_true_eq]
      constructor
      · rintro (rfl | ⟨r, hr, _⟩)
        · omega
        · simp at hr
      · rintro ⟨h2, h3⟩
        left
        omega
    · next h1 =>
      simp only [patternMem, List.not_mem_nil, List.mem_singleton, OrderedSet.memB,
        decide_eq_true_eq]
      constructor
      · rintro (h | ⟨r, rfl, h2, h3⟩)
        · exact absurd h (by simp)
        · simp only at h2 h3
          omega
      · rintro ⟨h2, h3⟩
        right
        exact ⟨(s, e - 1), rfl, h2, by omega⟩
  | sortedArray xs =>
    simp only [patternOf]
    rw [splitRuns_cover]
    simp [OrderedSet.memB]

theorem mem_insertByKey {α : Type} (f : α → Nat) (a x : α) (l : List α) :
    x ∈ insertByKey f a l ↔ x = a ∨ x ∈ l := by
  induction l with
  | nil => simp [insertByKey]
  | cons y ys ih =>
    simp only [insertByKey]
    split
    · simp [List.mem_cons]
    · simp only [List.mem_cons, ih]
      tauto

theorem mem_sortByKey {α : Type} (f : α → Nat) (l : List α) (x : α) :
    x ∈ sortByKey f l ↔ x ∈ l := by
  unfold sortByKey
  induction l with
  | nil => simp
  | cons y ys ih =>
    simp only [List.foldr_cons, mem_insertByKey, List.mem_cons, ih]

theorem expandRanges_mem (rs : List (Nat × Nat)) (x : Nat) :
    x ∈ expandRanges rs ↔ ∃ r ∈ rs, r.1 ≤ x ∧ x ≤ r.2 := by
  unfold expandRanges
  rw [List.mem_flatten]
  constructor
  · rintro ⟨l, hl, hx⟩
    obtain ⟨r, hr, rfl⟩ := List.mem_map.mp hl
    rw [List.mem_range'_1] at hx
    exact ⟨r, hr, by omega⟩
  · rintro ⟨r, hr, h1, h2⟩
    refine ⟨List.range' r.1 (r.2 + 1 - r.1), List.mem_map_of_mem _ hr, ?_⟩
    rw [List.mem_range'_1]
    omega

theorem decodeIndices_mem (qe : QueryElement) (x : Nat) :
    (decodeIndices qe).memB x = true ↔ patternMem (qe.set, qe.ranges) x := by
  unfold decodeIndices
  split
  · next h0 =>
    rw [List.length_eq_zero] at h0
    rw [memB_iff_mem_toList]
    simp only [OrderedSet.toList, patternMem, h0]
    simp
  · next h0 =>
    split
    · next hset =>
      rw [List.length_eq_zero] at hset
      split
      · next h1 =>
        match hq : qe.ranges with
        | [] =>
          rw [hq] at h1
          simp at h1
        | r :: rest =>
          rw [hq] at h1
          simp only [List.length_cons] at h1
          have hrest : rest = [] := by
            rw [← List.length_eq_zero]
            omega
          subst hrest
          simp only [hq]
          simp only [intervalOfRange, patternMem, hset, List.not_mem_nil, List.mem_singleton,
            OrderedSet.memB, decide_eq_true_eq]
          constructor
          · rintro ⟨ha, hb⟩
            exact Or.inr ⟨r, rfl, ha, by omega⟩
          · rintro (h | ⟨r', rfl, ha, hb⟩)
            · exact absurd h (by simp)
            · exact ⟨ha, by omega⟩
      · next h1 =>
        rw [memB_iff_mem_toList]
        simp only [OrderedSet.toList, patternMem, hset, List.not_mem_nil, false_or]
        exact expandRanges_mem qe.ranges x
    · next hset =>
      rw [memB_iff_mem_toList]
      have hrepr : (OrderedSet.sortedArray (sortByKey id (expandRanges qe.ranges ++ qe.set))).toList
          = sortByKey id (expandRanges qe.ranges ++ qe.set) := rfl
      rw [hrepr, mem_sortByKey, List.mem_append, expandRanges_mem]
      constructor
      · rintro (h | h)
        · exact Or.inr h
        · exact Or.inl h
      · rintro (h | h)
        · exact Or.inr h
        · exact Or.inl h

/-- `uid` is recorded under pattern `p` somewhere in a group list. -/
def groupsSel (gs : List (Pattern × List (Nat × List Nat))) (uid : Nat) (p : Pattern) : Prop :=
  ∃ g ∈ gs, g.1 = p ∧ ∃ b ∈ g.2, uid ∈ b.2

theorem bucketAdd_units (bs : List (Nat × List Nat)) (inv id u : Nat) :
    (∃ b ∈ bucketAdd bs inv id, u ∈ b.2) ↔ (∃ b ∈ bs, u ∈ b.2) ∨ u = id := by
  unfold bucketAdd
  split
  · next hany =>
    constructor
    · rintro ⟨b, hb, hu⟩
      obtain ⟨b0, hb0, rfl⟩ := List.mem_map.mp hb
      by_cases hk : b0.1 = inv
      · rw [if_pos hk] at hu
        simp only [List.mem_append, List.mem_singleton] at hu
        rcases hu with h | rfl
        · exact Or.inl ⟨b0, hb0, h⟩
        · exact Or.inr rfl
      · rw [if_neg hk] at hu
        exact Or.inl ⟨b0, hb0, hu⟩
    · rintro (⟨b, hb, hu⟩ | rfl)
      · refine ⟨if b.1 = inv then (b.1, b.2 ++ [id]) else b, List.mem_map_of_mem _ hb, ?_⟩
        split
        · simp only [List.mem_append]
          exact Or.inl hu
        · exact hu
      · rw [List.any_eq_true] at hany
        obtain ⟨b, hb, hbk⟩ := hany
        rw [decide_eq_true_eq] at hbk
        refine ⟨if b.1 = inv then (b.1, b.2 ++ [u]) else b, List.mem_map_of_mem _ hb, ?_⟩
        rw [if_pos hbk]
        simp
  · next hany =>
    simp only [List.mem_append, List.mem_singleton]
    constructor
    · rintro ⟨b, hb | rfl, hu⟩
      · exact Or.inl ⟨b, hb, hu⟩
      · simp only [List.mem_singleton] at hu
        exact Or.inr hu
    · rintro (⟨b, hb, hu⟩ | rfl)
      · exact ⟨b, Or.inl hb, hu⟩
      · exact ⟨(inv, [u]), Or.inr rfl, by simp⟩

theorem insertGrouped_sel (acc : List (Pattern × List (Nat × List Nat)))
    (u : SUnit) (p : Pattern) (uid : Nat) (q : Pattern) :
    groupsSel (insertGrouped acc u p) uid q
      ↔ groupsSel acc uid q ∨ (uid = u.id ∧ q = p) := by
  unfold insertGrouped groupsSel
  split
  · next hany =>
    constructor
    · rintro ⟨g, hg, hgq, b, hb, hu⟩
      obtain ⟨g0, hg0, rfl⟩ := List.mem_map.mp hg
      by_cases hk : g0.1 = p
      · rw [if_pos hk] at hgq hb
        simp only at hgq hb
        have hbu := (bucketAdd_units g0.2 u.invariantId u.id uid).mp ⟨b, hb, hu⟩
        rcases hbu with ⟨b0, hb0, hu0⟩ | rfl
        · exact Or.inl ⟨g0, hg0, hgq, b0, hb0, hu0⟩
        · exact Or.inr ⟨rfl, hgq.symm.trans hk⟩
      · rw [if_neg hk] at hgq hb
        exact Or.inl ⟨g0, hg0, hgq, b, hb, hu⟩
    · rintro (⟨g, hg, hgq, b, hb, hu⟩ | ⟨rfl, rfl⟩)
      · by_cases hk : g.1 = p
        · refine ⟨(g.1, bucketAdd g.2 u.invariantId u.id), ?_, hgq, ?_⟩
          · have : (if g.1 = p then (g.1, bucketAdd g.2 u.invariantId u.id) else g)
                = (g.1, bucketAdd g.2 u.invariantId u.id) := if_pos hk
            rw [← this]
            exact List.mem_map_of_mem _ hg
          · exact (bucketAdd_units g.2 u.invariantId u.id uid).mpr (Or.inl ⟨b, hb, hu⟩)
        · refine ⟨g, ?_, hgq, b, hb, hu⟩
          have : (if g.1 = p then (g.1, bucketAdd g.2 u.invariantId u.id) else g) = g := if_neg hk
          rw [← this]
          exact List.mem_map_of_mem _ hg
      · rw [List.any_eq_true] at hany
        obtain ⟨g, hg, hgk⟩ := hany
        rw [decide_eq_true_eq] at hgk
        refine ⟨(g.1, bucketAdd g.2 u.invariantId u.id), ?_, hgk, ?_⟩
        · have : (if g.1 = q then (g.1, bucketAdd g.2 u.invariantId u.id) else g)
              = (g.1, bucketAdd g.2 u.invariantId u.id) := if_pos hgk
          rw [← this]
          exact List.mem_map_of_mem _ hg
        · exact (bucketAdd_units g.2 u.invariantId u.id u.id).mpr (Or.inr rfl)
  · next hany =>
    constructor
    · rintro ⟨g, hg, hgq, b, hb, hu⟩
      rcases List.mem_append.mp hg with hg0 | hg1
      · exact Or.inl ⟨g, hg0, hgq, b, hb, hu⟩
      · simp only [List.mem_singleton] at hg1
        subst hg1
        simp only [List.mem_singleton] at hb
        subst hb
        simp only [List.mem_singleton] at hu
        exact Or.inr ⟨hu, hgq.symm⟩
    · rintro (⟨g, hg, hgq, b, hb, hu⟩ | ⟨rfl, rfl⟩)
      · exact ⟨g, List.mem_append.mpr (Or.inl hg), hgq, b, hb, hu⟩
      · exact ⟨(q, [(u.invariantId, [u.id])]), List.mem_append.mpr (Or.inr (by simp)), rfl,
          (u.invariantId, [u.id]), by simp, by simp⟩

theorem fromLociGroups_sel (l : Loci) (uid : Nat) (q : Pattern) :
    groupsSel (fromLociGroups l) uid q
      ↔ ∃ up ∈ fromLociPre l, up.1.id = uid ∧ up.2 = q := by
  unfold fromLociGroups
  have hgen : ∀ (pre : List (SUnit × Pattern)) (acc : List (Pattern × List (Nat × List Nat))),
      groupsSel (pre.foldl (fun acc up => insertGrouped acc up.1 up.2) acc) uid q
        ↔ groupsSel acc uid q ∨ ∃ up ∈ pre, up.1.id = uid ∧ up.2 = q := by
    intro pre
    induction pre with
    | nil =>
      intro acc
      simp
    | cons up pre ih =>
      intro acc
      simp only [List.foldl_cons]
      rw [ih, insertGrouped_sel]
      simp only [List.mem_cons]
      constructor
      · rintro ((h | ⟨h1, h2⟩) | ⟨up', hup', h3, h4⟩)
        · exact Or.inl h
        · exact Or.inr ⟨up, Or.inl rfl, h1.symm, h2.symm⟩
        · exact Or.inr ⟨up', Or.inr hup', h3, h4⟩
      · rintro (h | ⟨up', rfl | hup', h3, h4⟩)
        · exact Or.inl (Or.inl h)
        · exact Or.inl (Or.inr ⟨h3.symm, h4.symm⟩)
        · exact Or.inr ⟨up', hup', h3, h4⟩
  rw [hgen]
  have : ¬ groupsSel [] uid q := by
    rintro ⟨g, hg, _⟩
    simp at hg
  tauto

theorem fromLociPre_mem (l : Loci) (up : SUnit × Pattern) :
    up ∈ fromLociPre l
      ↔ ∃ e ∈ l.elements, e.indices.size ≠ 0 ∧ up = (e.unit, patternOf e.indices) := by
  unfold fromLociPre
  rw [List.mem_filterMap]
  constructor
  · rintro ⟨e, he, hif⟩
    by_cases hsz : e.indices.size = 0
    · rw [if_pos hsz] at hif
      simp at hif
    · rw [if_neg hsz] at hif
      simp only [Option.some.injEq] at hif
      exact ⟨e, he, hsz, hif.symm⟩
  · rintro ⟨e, he, hsz, rfl⟩
    exact ⟨e, he, by rw [if_neg hsz]⟩

theorem fromLoci_elements_sel (l : Loci) (uid : Nat) (q : Pattern) :
    (∃ qe ∈ (fromLoci l).elements, (qe.set, qe.ranges) = q
        ∧ ∃ g ∈ qe.groupedUnits, uid ∈ g)
      ↔ groupsSel (fromLociGroups l) uid q := by
  unfold fromLoci
  simp only
  constructor
  · rintro ⟨qe, hqe, hq, g, hg, hu⟩
    obtain ⟨grp, hgrp, rfl⟩ := List.mem_map.mp hqe
    simp only at hq hg
    rw [mem_sortByKey] at hg
    obtain ⟨b, hb, rfl⟩ := List.mem_map.mp hg
    rw [mem_sortByKey] at hu
    exact ⟨grp, hgrp, hq, b, hb, hu⟩
  · rintro ⟨grp, hgrp, hq, b, hb, hu⟩
    refine ⟨_, List.mem_map_of_mem _ hgrp, hq, ?_⟩
    refine ⟨sortByKey id b.2, ?_, ?_⟩
    · simp only
      rw [mem_sortByKey]
      exact List.mem_map_of_mem _ hb
    · rw [mem_sortByKey]
      exact hu

theorem toLoci_selects (q : Query) (S : Structure) (uid idx : Nat) :
    (toLoci q S).selects uid idx
      ↔ ∃ qe ∈ q.elements, (∃ g ∈ qe.groupedUnits, uid ∈ g ∧ S.hasUnit uid = true)
          ∧ (decodeIndices qe).memB idx = true := by
  unfold toLoci Loci.selects
  simp only
  constructor
  · rintro ⟨e, he, hid, hmem⟩
    rw [List.mem_flatten] at he
    obtain ⟨li, hli, heli⟩ := he
    obtain ⟨qe, hqe, rfl⟩ := List.mem_map.mp hli
    rw [List.mem_flatten] at heli
    obtain ⟨lg, hlg, helg⟩ := heli
    obtain ⟨g, hg, rfl⟩ := List.mem_map.mp hlg
    by_cases hlen : (getUnitsFromIds g S).length = 0
    · rw [if_pos hlen] at helg
      simp at helg
    · rw [if_neg hlen] at helg
      obtain ⟨u, hu, rfl⟩ := List.mem_map.mp helg
      unfold getUnitsFromIds at hu
      rw [List.mem_filterMap] at hu
      obtain ⟨uid', huid', hif⟩ := hu
      by_cases hhas : S.hasUnit uid' = true
      · rw [if_pos hhas] at hif
        simp only [Option.some.injEq] at hif
        subst hif
        simp only at hid hmem
        rw [Structure.findUnit_id] at hid
        subst hid
        exact ⟨qe, hqe, ⟨g, hg, huid', hhas⟩, hmem⟩
      · rw [if_neg (by simpa using hhas)] at hif
        simp at hif
  · rintro ⟨qe, hqe, ⟨g, hg, hu, hhas⟩, hmem⟩
    refine ⟨⟨S.findUnit uid, decodeIndices qe⟩, ?_, Structure.findUnit_id S uid, hmem⟩
    rw [List.mem_flatten]
    refine ⟨_, List.mem_map_of_mem _ hqe, ?_⟩
    rw [List.mem_flatten]
    refine ⟨_, List.mem_map_of_mem _ hg, ?_⟩
    have humem : S.findUnit uid ∈ getUnitsFromIds g S := by
      unfold getUnitsFromIds
      rw [List.mem_filterMap]
      exact ⟨uid, hu, by rw [if_pos hhas]⟩
    rw [if_neg (by
      intro h0
      rw [List.length_eq_zero] at h0
      rw [h0] at humem
      simp at humem)]
    exact List.mem_map.mpr ⟨S.findUnit uid, humem, rfl⟩

/-- C3 (amended): for every Loci `L` whose unit ids all occur in its
structure's unit map, replaying `Query.fromLoci(L)` through
`Query.toLoci` against the same structure selects exactly the
`(unit id, element index)` pairs of `L`, independent of element order and
of the Interval / SortedArray representation of each index set.  (A unit
listed with an *empty* index set is dropped by the encoder, so the claim
as literally stated — same entries in the elements array — fails for
such degenerate entries; selection-wise the round trip is exact.) -/
theorem c3_query_roundTrip (L : Loci)
    (hwf : ∀ e ∈ L.elements, L.struct.hasUnit e.unit.id = true) :
    ∀ uid idx, (toLoci (fromLoci L) L.struct).selects uid idx ↔ L.selects uid idx := by
  intro uid idx
  rw [toLoci_selects]
  constructor
  · rintro ⟨qe, hqe, ⟨g, hg, hu, hhas⟩, hmem⟩
    have hsel : groupsSel (fromLociGroups L) uid (qe.set, qe.ranges) :=
      (fromLoci_elements_sel L uid (qe.set, qe.ranges)).mp ⟨qe, hqe, rfl, g, hg, hu⟩
    obtain ⟨up, hup, hupid, huppat⟩ := (fromLociGroups_sel L uid (qe.set, qe.ranges)).mp hsel
    obtain ⟨e, he, hsz, rfl⟩ := (fromLociPre_mem L up).mp hup
    simp only at hupid huppat
    rw [decodeIndices_mem] at hmem
    rw [← huppat] at hmem
    rw [patternOf_mem e.indices idx hsz] at hmem
    exact ⟨e, he, hupid, hmem⟩
  · rintro ⟨e, he, hid, hmem⟩
    have hsz : e.indices.size ≠ 0 := memB_size_pos e.indices idx hmem
    have hup : (e.unit, patternOf e.indices) ∈ fromLociPre L :=
      (fromLociPre_mem L _).mpr ⟨e, he, hsz, rfl⟩
    have hsel : groupsSel (fromLociGroups L) uid (patternOf e.indices) :=
      (fromLociGroups_sel L uid (patternOf e.indices)).mpr ⟨_, hup, hid, rfl⟩
    obtain ⟨qe, hqe, hq, g, hg, hu⟩ := (fromLoci_elements_sel L uid (patternOf e.indices)).mpr hsel
    refine ⟨qe, hqe, ⟨g, hg, hu, ?_⟩, ?_⟩
    · rw [← hid]
      exact hwf e he
    · rw [decodeIndices_mem, hq, patternOf_mem e.indices idx hsz]
      exact hmem

/-- C3 witness: the round trip applied to a concrete two-element Loci
mixing an Interval and a SortedArray index set, instanced at one selected
pair and one unselected pair. -/
theorem c3_query_roundTrip_witness :
    ((toLoci (fromLoci ⟨⟨[⟨1, 1⟩, ⟨2, 1⟩], 9, none⟩,
        [⟨⟨1, 1⟩, .interval 0 3⟩, ⟨⟨2, 1⟩, .sortedArray [4, 7]⟩]⟩)
      ⟨[⟨1, 1⟩, ⟨2, 1⟩], 9, none⟩).selects 2 7
      ↔ (Loci.mk ⟨[⟨1, 1⟩, ⟨2, 1⟩], 9, none⟩
        [⟨⟨1, 1⟩, .interval 0 3⟩, ⟨⟨2, 1⟩, .sortedArray [4, 7]⟩]).selects 2 7)
    ∧ ((toLoci (fromLoci ⟨⟨[⟨1, 1⟩, ⟨2, 1⟩], 9, none⟩,
        [⟨⟨1, 1⟩, .interval 0 3⟩, ⟨⟨2, 1⟩, .sortedArray [4, 7]⟩]⟩)
      ⟨[⟨1, 1⟩, ⟨2, 1⟩], 9, none⟩).selects 1 5
      ↔ (Loci.mk ⟨[⟨1, 1⟩, ⟨2, 1⟩], 9, none⟩
        [⟨⟨1, 1⟩, .interval 0 3⟩, ⟨⟨2, 1⟩, .sortedArray [4, 7]⟩]).selects 1 5) :=
  ⟨c3_query_roundTrip _ (by decide) 2 7, c3_query_roundTrip _ (by decide) 1 5⟩

/-! ### Key-string lemmas for getMissingResidues -/

theorem charOfDigit_toNat (d : Nat) (hd : d < 10) : (Char.ofNat (48 + d)).toNat = 48 + d := by
  interval_cases d <;> decide

theorem natChars_digit (n : Nat) : ∀ c ∈ natChars n, 48 ≤ c.toNat ∧ c.toNat ≤ 57 := by
  induction n using natChars.induct with
  | case1 n h =>
    intro c hc
    rw [natChars, dif_pos h] at hc
    simp only [List.mem_singleton] at hc
    subst hc
    rw [charOfDigit_toNat n h]
    omega
  | case2 n h ih =>
    intro c hc
    rw [natChars, dif_neg h] at hc
    rcases List.mem_append.mp hc with h1 | h1
    · exact ih c h1
    · simp only [List.mem_singleton] at h1
      subst h1
      rw [charOfDigit_toNat (n % 10) (Nat.mod_lt n (by omega))]
      omega

/-- Reading decimal digit characters back as a number. -/
def valOfDigits (ds : List Char) : Nat :=
  ds.foldl (fun acc c => acc * 10 + (c.toNat - 48)) 0

theorem valOfDigits_natChars (n : Nat) : valOfDigits (natChars n) = n := by
  induction n using natChars.induct with
  | case1 n h =>
    rw [natChars, dif_pos h]
    simp only [valOfDigits, List.foldl_cons, List.foldl_nil]
    rw [charOfDigit_toNat n h]
    omega
  | case2 n h ih =>
    rw [natChars, dif_neg h]
    unfold valOfDigits at ih ⊢
    rw [List.foldl_append]
    rw [ih]
    simp only [List.foldl_cons, List.foldl_nil]
    rw [charOfDigit_toNat (n % 10) (Nat.mod_lt n (by omega))]
    omega

theorem natChars_injective (a b : Nat) (h : natChars a = natChars b) : a = b := by
  have ha := valOfDigits_natChars a
  have hb := valOfDigits_natChars b
  rw [h] at ha
  rw [hb] at ha
  exact ha.symm

theorem natChars_no_pipe (n : Nat) : '|' ∉ natChars n := by
  intro h
  have := natChars_digit n '|' h
  revert this
  decide

theorem natChars_no_minus (n : Nat) : '-' ∉ natChars n := by
  intro h
  have := natChars_digit n '-' h
  revert this
  decide

theorem intChars_no_pipe (i : Int) : '|' ∉ intChars i := by
  cases i with
  | ofNat n => exact natChars_no_pipe n
  | negSucc n =>
    simp only [intChars, List.mem_cons]
    rintro (h | h)
    · exact absurd h (by decide)
    · exact natChars_no_pipe (n + 1) h

theorem intChars_injective (i j : Int) (h : intChars i = intChars j) : i = j := by
  cases i with
  | ofNat n =>
    cases j with
    | ofNat m =>
      simp only [intChars] at h
      rw [natChars_injective n m h]
    | negSucc m =>
      simp only [intChars] at h
      exfalso
      apply natChars_no_minus n
      rw [h]
      exact List.mem_cons_self _ _
  | negSucc n =>
    cases j with
    | ofNat m =>
      simp only [intChars] at h
      exfalso
      apply natChars_no_minus m
      rw [← h]
      exact List.mem_cons_self _ _
    | negSucc m =>
      simp only [intChars, List.cons.injEq] at h
      have h2 := natChars_injective (n + 1) (m + 1) h.2
      have h3 : n = m := by omega
      rw [h3]

theorem sep_split_left (l1 r1 l2 r2 : List Char)
    (h1 : '|' ∉ l1) (h2 : '|' ∉ l2)
    (heq : l1 ++ '|' :: r1 = l2 ++ '|' :: r2) : l1 = l2 ∧ r1 = r2 := by
  induction l1 generalizing l2 with
  | nil =>
    cases l2 with
    | nil =>
      simp only [List.nil_append, List.cons.injEq] at heq
      exact ⟨rfl, heq.2⟩
    | cons d u =>
      simp only [List.nil_append, List.cons_append, List.cons.injEq] at heq
      exact absurd (heq.1 ▸ List.mem_cons_self d u) (heq.1 ▸ h2)
  | cons c t ih =>
    cases l2 with
    | nil =>
      simp only [List.cons_append, List.nil_append, List.cons.injEq] at heq
      exact absurd (heq.1 ▸ List.mem_cons_self c t) (by rw [heq.1] at h1; exact h1)
    | cons d u =>
      simp only [List.cons_append, List.cons.injEq] at heq
      have hni1 : '|' ∉ t := fun hx => h1 (List.mem_cons_of_mem c hx)
      have hni2 : '|' ∉ u := fun hx => h2 (List.mem_cons_of_mem d hx)
      obtain ⟨hl, hr⟩ := ih u hni1 hni2 heq.2
      exact ⟨by rw [heq.1, hl], hr⟩

theorem sep_split_right (a1 s1 a2 s2 : List Char)
    (h1 : '|' ∉ s1) (h2 : '|' ∉ s2)
    (heq : a1 ++ '|' :: s1 = a2 ++ '|' :: s2) : a1 = a2 ∧ s1 = s2 := by
  have hrev : s1.reverse ++ '|' :: a1.reverse = s2.reverse ++ '|' :: a2.reverse := by
    have e1 : (a1 ++ '|' :: s1).reverse = s1.reverse ++ '|' :: a1.reverse := by
      rw [List.reverse_append]
      simp
    have e2 : (a2 ++ '|' :: s2).reverse = s2.reverse ++ '|' :: a2.reverse := by
      rw [List.reverse_append]
      simp
    rw [← e1, ← e2, heq]
  have hn1 : '|' ∉ s1.reverse := by simpa using h1
  have hn2 : '|' ∉ s2.reverse := by simpa using h2
  obtain ⟨hs, ha⟩ := sep_split_left _ _ _ _ hn1 hn2 hrev
  constructor
  · have := congrArg List.reverse ha
    simpa using this
  · have := congrArg List.reverse hs
    simpa using this

theorem getKey_injective (m1 m2 : Int) (a1 a2 : String) (s1 s2 : Int)
    (h : getKey m1 a1 s1 = getKey m2 a2 s2) : m1 = m2 ∧ a1 = a2 ∧ s1 = s2 := by
  unfold getKey at h
  rw [List.append_assoc, List.append_assoc, List.cons_append, List.cons_append] at h
  obtain ⟨hm, hrest⟩ := sep_split_left _ _ _ _ (intChars_no_pipe m1) (intChars_no_pipe m2) h
  obtain ⟨ha, hs⟩ := sep_split_right _ _ _ _ (intChars_no_pipe s1) (intChars_no_pipe s2) hrest
  refine ⟨intChars_injective _ _ hm, ?_, intChars_injective _ _ hs⟩
  cases a1 with
  | mk d1 =>
    cases a2 with
    | mk d2 =>
      exact congrArg String.mk ha

/-! ### JS-Map fold lemmas (last-write-wins, insertion-keyed size) -/

theorem mapHas_iff_exists {κ α : Type} [DecidableEq κ] (m : List (κ × α)) (k : κ) :
    mapHas m k = true ↔ ∃ kv ∈ m, kv.1 = k := by
  simp [mapHas, List.any_eq_true]

theorem mapGet_cons {κ α : Type} [DecidableEq κ] (q : κ × α) (l : List (κ × α)) (k : κ) :
    mapGet (q :: l) k = if q.1 = k then some q.2 else mapGet l k := by
  unfold mapGet
  simp only [List.find?_cons]
  by_cases h : q.1 = k
  · simp [h]
  · simp [h]

theorem mapGet_isSome_of_has {κ α : Type} [DecidableEq κ] (m : List (κ × α)) (k : κ)
    (h : mapHas m k = true) : ∃ v, mapGet m k = some v := by
  cases hg : mapGet m k with
  | some v => exact ⟨v, rfl⟩
  | none =>
    obtain ⟨kv, hkv, hk⟩ := (mapHas_iff_exists m k).mp h
    exact absurd hk ((mapGet_eq_none_iff m k).mp hg kv hkv)

theorem keys_mapSet {κ α : Type} [DecidableEq κ] (m : List (κ × α)) (k : κ) (v : α) :
    (mapSet m k v).map Prod.fst
      = if mapHas m k then m.map Prod.fst else m.map Prod.fst ++ [k] := by
  unfold mapSet mapHas
  split
  · next h =>
    rw [List.map_map]
    apply List.map_congr_left
    intro p _
    simp only [Function.comp_apply]
    split
    · next hp => exact hp.symm
    · rfl
  · next h =>
    simp

theorem length_mapSet {κ α : Type} [DecidableEq κ] (m : List (κ × α)) (k : κ) (v : α) :
    (mapSet m k v).length = if mapHas m k then m.length else m.length + 1 := by
  have h1 : (mapSet m k v).length = ((mapSet m k v).map Prod.fst).length := by
    rw [List.length_map]
  rw [h1, keys_mapSet m k v]
  split
  · rw [List.length_map]
  · rw [List.length_append, List.length_map]
    rfl

theorem mapGet_overwriteMap {κ α : Type} [DecidableEq κ] (m : List (κ × α)) (k' k : κ) (v : α) :
    mapGet (m.map (fun p => if p.1 = k' then (k', v) else p)) k
      = if k = k' then (mapGet m k').map (fun _ => v) else mapGet m k := by
  induction m with
  | nil => simp [mapGet]
  | cons p l ih =>
    simp only [List.map_cons]
    by_cases hp : p.1 = k'
    · rw [if_pos hp, mapGet_cons]
      by_cases hk : k = k'
      · rw [if_pos (show (k', v).1 = k from hk.symm), if_pos hk, mapGet_cons, if_pos hp]
        rfl
      · rw [if_neg (show ¬ (k', v).1 = k from fun hx => hk hx.symm), ih, if_neg hk, if_neg hk,
          mapGet_cons, if_neg (fun hx : p.1 = k => hk (hx ▸ hp))]
    · rw [if_neg hp, mapGet_cons]
      by_cases hpk : p.1 = k
      · have hk : ¬ k = k' := fun hx => hp (hpk.trans hx)
        rw [if_pos hpk, if_neg hk, mapGet_cons, if_pos hpk]
      · rw [if_neg hpk, ih]
        by_cases hk : k = k'
        · rw [if_pos hk, if_pos hk, mapGet_cons, if_neg (fun hx : p.1 = k' => hp hx)]
        · rw [if_neg hk, if_neg hk, mapGet_cons, if_neg hpk]

theorem mapGet_mapSet {κ α : Type} [DecidableEq κ] (m : List (κ × α)) (k' k : κ) (v : α) :
    mapGet (mapSet m k' v) k = if k = k' then some v else mapGet m k := by
  by_cases hhas : mapHas m k' = true
  · have hset : mapSet m k' v = m.map (fun p => if p.1 = k' then (k', v) else p) := by
      unfold mapSet mapHas at *
      rw [if_pos hhas]
    rw [hset, mapGet_overwriteMap]
    by_cases hk : k = k'
    · rw [if_pos hk, if_pos hk]
      obtain ⟨w, hw⟩ := mapGet_isSome_of_has m k' hhas
      rw [hw]
      rfl
    · rw [if_neg hk, if_neg hk]
  · have hset := mapSet_of_mapHas_false m k' v (by
      cases hx : mapHas m k'
      · rfl
      · exact absurd hx hhas)
    rw [hset]
    induction m with
    | nil =>
      simp only [List.nil_append]
      rw [mapGet_cons]
      by_cases hk : k = k'
      · rw [if_pos (show ((k', v) : κ × α).1 = k from hk.symm), if_pos hk]
      · rw [if_neg (show ¬ ((k', v) : κ × α).1 = k from fun hx => hk hx.symm), if_neg hk]
    | cons p l ih =>
      simp only [List.cons_append]
      rw [mapGet_cons, mapGet_cons]
      by_cases hpk : p.1 = k
      · rw [if_pos hpk, if_pos hpk]
        by_cases hk : k = k'
        · exfalso
          apply hhas
          exact (mapHas_iff_exists _ _).mpr ⟨p, List.mem_cons_self p l, hpk.trans hk⟩
        · rw [if_neg hk]
      · have hhas' : ¬ mapHas l k' = true := by
          intro hx
          apply hhas
          obtain ⟨kv, hkv, hkk⟩ := (mapHas_iff_exists l k').mp hx
          exact (mapHas_iff_exists _ _).mpr ⟨kv, List.mem_cons_of_mem p hkv, hkk⟩
        have hset' := mapSet_of_mapHas_false l k' v (by
          cases hx : mapHas l k'
          · rfl
          · exact absurd hx hhas')
        rw [if_neg hpk, if_neg hpk, ih hhas' hset']

theorem foldl_mapSet_has {κ α ρ : Type} [DecidableEq κ] (f : ρ → κ) (g : ρ → α)
    (rows : List ρ) (k : κ) :
    ∀ m0 : List (κ × α),
      (mapHas (rows.foldl (fun m r => mapSet m (f r) (g r)) m0) k = true
        ↔ mapHas m0 k = true ∨ ∃ r ∈ rows, f r = k) := by
  induction rows with
  | nil =>
    intro m0
    simp
  | cons r rows ih =>
    intro m0
    simp only [List.foldl_cons]
    rw [ih]
    have hstep : mapHas (mapSet m0 (f r) (g r)) k = true ↔ (mapHas m0 k = true ∨ f r = k) := by
      rw [mapHas_iff_exists, mapHas_iff_exists]
      constructor
      · rintro ⟨kv, hkv, hk⟩
        unfold mapSet at hkv
        split at hkv
        · obtain ⟨p, hp, rfl⟩ := List.mem_map.mp hkv
          split at hk
          · next hpp => exact Or.inr hk
          · exact Or.inl ⟨p, hp, hk⟩
        · rcases List.mem_append.mp hkv with h | h
          · exact Or.inl ⟨kv, h, hk⟩
          · simp only [List.mem_singleton] at h
            subst h
            exact Or.inr hk
      · rintro (⟨kv, hkv, hk⟩ | hk)
        · unfold mapSet
          split
          · refine ⟨if kv.1 = f r then (f r, g r) else kv, List.mem_map_of_mem _ hkv, ?_⟩
            split
            · next hx => exact hx.symm.trans hk
            · exact hk
          · exact ⟨kv, List.mem_append.mpr (Or.inl hkv), hk⟩
        · unfold mapSet
          split
          · next hany =>
            rw [List.any_eq_true] at hany
            obtain ⟨p, hp, hpk⟩ := hany
            rw [decide_eq_true_eq] at hpk
            refine ⟨(f r, g r), ?_, hk⟩
            rw [List.mem_map]
            exact ⟨p, hp, by rw [if_pos hpk]⟩
          · exact ⟨(f r, g r), List.mem_append.mpr (Or.inr (by simp)), hk⟩
    rw [hstep]
    simp only [List.mem_cons]
    constructor
    · rintro ((h | h) | ⟨r', hr', hk⟩)
      · exact Or.inl h
      · exact Or.inr ⟨r, Or.inl rfl, h⟩
      · exact Or.inr ⟨r', Or.inr hr', hk⟩
    · rintro (h | ⟨r', rfl | hr', hk⟩)
      · exact Or.inl (Or.inl h)
      · exact Or.inl (Or.inr hk)
      · exact Or.inr ⟨r', hr', hk⟩

theorem foldl_mapSet_get {κ α ρ : Type} [DecidableEq κ] (f : ρ → κ) (g : ρ → α)
    (rows : List ρ) (k : κ) (v : α) :
    ∀ m0 : List (κ × α),
      mapGet (rows.foldl (fun m r => mapSet m (f r) (g r)) m0) k = some v →
      (∃ r ∈ rows, f r = k ∧ g r = v) ∨ mapGet m0 k = some v := by
  induction rows with
  | nil =>
    intro m0 h
    exact Or.inr h
  | cons r rows ih =>
    intro m0 h
    simp only [List.foldl_cons] at h
    rcases ih (mapSet m0 (f r) (g r)) h with ⟨r', hr', hk, hv⟩ | hm0
    · exact Or.inl ⟨r', List.mem_cons_of_mem r hr', hk, hv⟩
    · rw [mapGet_mapSet] at hm0
      split at hm0
      · next hk =>
        simp only [Option.some.injEq] at hm0
        exact Or.inl ⟨r, List.mem_cons_self r rows, hk.symm, hm0⟩
      · exact Or.inr hm0

theorem mapGet_none_of_has_false {κ α : Type} [DecidableEq κ] (m : List (κ × α)) (k : κ)
    (h : mapHas m k = false) : mapGet m k = none := by
  rw [mapGet_eq_none_iff]
  intro kv hkv hk
  have := (mapHas_iff_exists m k).mpr ⟨kv, hkv, hk⟩
  rw [h] at this
  exact Bool.false_ne_true this

theorem keysFinset_mapSet {κ α : Type} [DecidableEq κ] (m : List (κ × α)) (k : κ) (v : α) :
    ((mapSet m k v).map Prod.fst).toFinset = insert k ((m.map Prod.fst).toFinset) := by
  rw [keys_mapSet]
  split
  · next h =>
    have hk : k ∈ (m.map Prod.fst).toFinset := by
      rw [List.mem_toFinset, List.mem_map]
      obtain ⟨kv, hkv, hkk⟩ := (mapHas_iff_exists m k).mp h
      exact ⟨kv, hkv, hkk⟩
    rw [Finset.insert_eq_self.mpr hk]
  · rw [List.toFinset_append]
    simp [Finset.union_comm, Finset.insert_eq]

theorem foldl_mapSet_keysFinset {κ α ρ : Type} [DecidableEq κ] (f : ρ → κ) (g : ρ → α)
    (rows : List ρ) :
    ∀ m0 : List (κ × α),
      ((rows.foldl (fun m r => mapSet m (f r) (g r)) m0).map Prod.fst).toFinset
        = (m0.map Prod.fst).toFinset ∪ (rows.map f).toFinset := by
  induction rows with
  | nil =>
    intro m0
    simp
  | cons r rows ih =>
    intro m0
    simp only [List.foldl_cons, List.map_cons, List.toFinset_cons]
    rw [ih, keysFinset_mapSet]
    ext x
    simp only [Finset.mem_union, Finset.mem_insert]
    tauto

theorem foldl_mapSet_length {κ α ρ : Type} [DecidableEq κ] (f : ρ → κ) (g : ρ → α)
    (rows : List ρ) :
    ∀ m0 : List (κ × α),
      m0.length = ((m0.map Prod.fst).toFinset).card →
      (rows.foldl (fun m r => mapSet m (f r) (g r)) m0).length
        = (((rows.foldl (fun m r => mapSet m (f r) (g r)) m0).map Prod.fst).toFinset).card := by
  induction rows with
  | nil =>
    intro m0 h
    exact h
  | cons r rows ih =>
    intro m0 h
    simp only [List.foldl_cons]
    apply ih
    rw [length_mapSet, keysFinset_mapSet]
    split
    · next hhas =>
      have hk : f r ∈ (m0.map Prod.fst).toFinset := by
        rw [List.mem_toFinset, List.mem_map]
        obtain ⟨kv, hkv, hkk⟩ := (mapHas_iff_exists m0 (f r)).mp hhas
        exact ⟨kv, hkv, hkk⟩
      rw [Finset.insert_eq_self.mpr hk, h]
    · next hhas =>
      have hk : f r ∉ (m0.map Prod.fst).toFinset := by
        rw [List.mem_toFinset, List.mem_map]
        rintro ⟨kv, hkv, hkk⟩
        have := (mapHas_iff_exists m0 (f r)).mpr ⟨kv, hkv, hkk⟩
        rw [this] at hhas
        exact hhas rfl
      rw [Finset.card_insert_of_not_mem hk, h]

/-- The key of one table row. -/
def keyOfRow (r : MissingResidueRow) : List Char :=
  getKey r.pdbModelNum r.labelAsymId r.labelSeqId

/-- The record stored for one table row. -/
def recOfRow (r : MissingResidueRow) : MissingResidue :=
  ⟨r.polymerFlag, r.occupancyFlag⟩

/-- The key of a (model number, asym id, seq id) triple. -/
def encTriple (t : Int × String × Int) : List Char :=
  getKey t.1 t.2.1 t.2.2

theorem encTriple_injective : Function.Injective encTriple := by
  rintro ⟨m1, a1, s1⟩ ⟨m2, a2, s2⟩ h
  obtain ⟨hm, ha, hs⟩ := getKey_injective m1 m2 a1 a2 s1 s2 h
  rw [hm, ha, hs]

theorem missingResiduesMap_eq (rows : List MissingResidueRow) :
    missingResiduesMap rows
      = rows.foldl (fun m r => mapSet m (keyOfRow r) (recOfRow r)) [] := rfl

/-- C9: the lookup built by `getMissingResidues` behaves as a finite map
keyed by the (model number, asym id, seq id) triple: `has` is true exactly
when the table holds a row with that triple, a present key's `get` is the
stored record of such a row and an absent key's `get` is `undefined`
(`none`) without raising, and `size` counts the distinct key triples. -/
theorem c9_getMissingResidues (rows : List MissingResidueRow)
    (mn : Int) (asym : String) (sq : Int) :
    (missingResiduesHas rows mn asym sq = true
       ↔ ∃ r ∈ rows, r.pdbModelNum = mn ∧ r.labelAsymId = asym ∧ r.labelSeqId = sq)
    ∧ (missingResiduesHas rows mn asym sq = false →
        missingResiduesGet rows mn asym sq = none)
    ∧ (missingResiduesHas rows mn asym sq = true →
        ∃ r ∈ rows, r.pdbModelNum = mn ∧ r.labelAsymId = asym ∧ r.labelSeqId = sq
          ∧ missingResiduesGet rows mn asym sq = some ⟨r.polymerFlag, r.occupancyFlag⟩)
    ∧ missingResiduesSize rows = (rows.map MissingResidueRow.triple).dedup.length := by
  have hkey : ∀ r : MissingResidueRow,
      keyOfRow r = getKey mn asym sq
        ↔ (r.pdbModelNum = mn ∧ r.labelAsymId = asym ∧ r.labelSeqId = sq) := by
    intro r
    constructor
    · intro h
      exact getKey_injective _ _ _ _ _ _ h
    · rintro ⟨h1, h2, h3⟩
      unfold keyOfRow
      rw [h1, h2, h3]
  refine ⟨?_, ?_, ?_, ?_⟩
  · unfold missingResiduesHas
    rw [missingResiduesMap_eq, foldl_mapSet_has keyOfRow recOfRow rows (getKey mn asym sq) []]
    have hnil : mapHas ([] : List (List Char × MissingResidue)) (getKey mn asym sq) = false := rfl
    rw [hnil]
    simp only [Bool.false_eq_true, false_or]
    constructor
    · rintro ⟨r, hr, hk⟩
      exact ⟨r, hr, (hkey r).mp hk⟩
    · rintro ⟨r, hr, hk⟩
      exact ⟨r, hr, (hkey r).mpr hk⟩
  · intro h
    unfold missingResiduesGet missingResiduesHas at *
    exact mapGet_none_of_has_false _ _ h
  · intro h
    unfold missingResiduesHas at h
    obtain ⟨v, hv⟩ := mapGet_isSome_of_has _ _ h
    have hfold : mapGet (rows.foldl (fun m r => mapSet m (keyOfRow r) (recOfRow r)) [])
        (getKey mn asym sq) = some v := by
      rw [← missingResiduesMap_eq]
      exact hv
    rcases foldl_mapSet_get keyOfRow recOfRow rows (getKey mn asym sq) v [] hfold with
      ⟨r, hr, hk, hrec⟩ | hnil
    · obtain ⟨h1, h2, h3⟩ := (hkey r).mp hk
      refine ⟨r, hr, h1, h2, h3, ?_⟩
      unfold missingResiduesGet
      rw [hv, ← hrec]
      rfl
    · exact absurd hnil (by rw [show mapGet ([] : List (List Char × MissingResidue))
        (getKey mn asym sq) = none from rfl]; simp)
  · unfold missingResiduesSize
    rw [missingResiduesMap_eq]
    have hlen := foldl_mapSet_length keyOfRow recOfRow rows [] (by rfl)
    rw [hlen, foldl_mapSet_keysFinset keyOfRow recOfRow rows []]
    have hnil : ((([] : List (List Char × MissingResidue)).map Prod.fst).toFinset) = ∅ := rfl
    rw [hnil, Finset.empty_union]
    have hmapmap : rows.map keyOfRow = (rows.map MissingResidueRow.triple).map encTriple := by
      rw [List.map_map]
      rfl
    rw [hmapmap]
    have himg : (List.map encTriple (rows.map MissingResidueRow.triple)).toFinset
        = Finset.image encTriple (rows.map MissingResidueRow.triple).toFinset := by
      ext x
      simp [List.mem_map]
    rw [himg, Finset.card_image_of_injective _ encTriple_injective, List.card_toFinset]

/-- C9 witness: the theorem applied to a one-row table — the row's triple
is reported present with its stored record, and the size matches the
single distinct triple. -/
theorem c9_getMissingResidues_witness :
    missingResiduesHas [⟨1, "A", 2, "Y", "1"⟩] 1 "A" 2 = true
    ∧ missingResiduesGet [⟨1, "A", 2, "Y", "1"⟩] 1 "A" 2 = some ⟨"Y", "1"⟩
    ∧ missingResiduesSize [⟨1, "A", 2, "Y", "1"⟩] = 1 := by
  have hhas : missingResiduesHas [⟨1, "A", 2, "Y", "1"⟩] 1 "A" 2 = true :=
    (c9_getMissingResidues [⟨1, "A", 2, "Y", "1"⟩] 1 "A" 2).1.mpr
      ⟨⟨1, "A", 2, "Y", "1"⟩, by simp, rfl, rfl, rfl⟩
  refine ⟨hhas, ?_, ?_⟩
  · obtain ⟨r, hr, h1, h2, h3, hget⟩ :=
      (c9_getMissingResidues [⟨1, "A", 2, "Y", "1"⟩] 1 "A" 2).2.2.1 hhas
    simp only [List.mem_singleton] at hr
    subst hr
    exact hget
  · have hsz := (c9_getMissingResidues [⟨1, "A", 2, "Y", "1"⟩] 1 "A" 2).2.2.2
    rw [hsz]
    rfl

end MolStar
